import Mathlib

/-!
# Verification of the coding-in-parallel core against its specification

This file gives a shallow embedding, in Lean 4, of the core of the
`coding-in-parallel` code-repair agent:

* `validate.py`  — the unified-diff validator (`ensure_within_limits` and its
  helpers `require_unified_diff`, `_count_changed_loc`, `_touched_files`,
  `_span_map`, `_line_allowed`);
* `vcs.py`       — the diff normalizer `_normalize_diff`, the manual apply
  fallback `_apply_hunks`, and the repository primitives `checkpoint`,
  `revert`, `commit`;
* `tnr.py`       — the transactional executor `txn_patch`;
* `controller.py` — the targeted-test-command derivation `_derive_test_cmd`.

Python strings are modelled as Lean `String`s (equivalently their `List Char`
of code points); `str.splitlines` is modelled for `"\n"`-separated text, the
only line separator produced or consumed by this system.  Python `set`s of
strings are modelled as duplicate-free lists compared up to membership.
Machine/GIT effects (running `git apply`, the gates' subprocesses, `git diff
--numstat`) are modelled as oracle functions packaged in an `Env`; the
repository itself is a commit list plus a working tree, and every `git`
operation used by `txn_patch` is given its state-transformer meaning.
Exceptions are modelled with `Except`/`Option`: a Python function that raises
an exception its caller does not catch is a Lean function returning `.error`
or `none`.
-/

/-! ## Character and string utilities shared by all embeddings -/

/-- Boolean check that the first list is an initial segment of the second.
`pyStartsWith s p` below mirrors Python's `s.startswith(p)`. -/
def listPre : List Char → List Char → Bool
  | [], _ => true
  | _ :: _, [] => false
  | a :: as, b :: bs => a == b && listPre as bs

/-- Python's `s.startswith(p)`. -/
def pyStartsWith (s p : String) : Bool := listPre p.data s.data

/-- Python's `s.endswith(p)`. -/
def pyEndsWith (s p : String) : Bool := listPre p.data.reverse s.data.reverse

/-- Python's `"sub" in s` for the one substring test the validator performs
(`"@@" in diff`): two adjacent `'@'` characters occur in the string. -/
def hasAdjacentAt : List Char → Bool
  | '@' :: '@' :: _ => true
  | _ :: rest => hasAdjacentAt rest
  | [] => false

/-- Split a character list at every `'\n'`; yields one chunk more than the
number of newlines, the way `"a\nb".split("\n")` does. -/
def splitAtNl : List Char → List (List Char)
  | [] => [[]]
  | c :: rest =>
    if c = '\n' then [] :: splitAtNl rest
    else
      match splitAtNl rest with
      | [] => [[c]]
      | h :: t => (c :: h) :: t

/-- Python's `s.splitlines()` on `"\n"`-separated text (as a chunk list):
like `splitAtNl` but a final empty chunk — present exactly when the text is
empty or ends with a newline — is dropped. -/
def splitChars (cs : List Char) : List (List Char) :=
  let ch := splitAtNl cs
  if ch.getLast? = some [] then ch.dropLast else ch

/-- Python's `s.splitlines()` on `"\n"`-separated text, returning strings. -/
def splitLinesS (s : String) : List String :=
  (splitChars s.data).map fun cs => ⟨cs⟩

/-- Join chunks with `'\n'`, the inverse direction of `splitAtNl`. -/
def joinNl : List (List Char) → List Char
  | [] => []
  | [l] => l
  | l :: ls => l ++ '\n' :: joinNl (ls)

/-- Whitespace in the sense of Python's `str.split()` and `\s`, restricted to
the ASCII whitespace characters that can occur in this system's diffs. -/
def pyIsWs (c : Char) : Bool :=
  c = ' ' || c = '\t' || c = '\n' || c = '\r' || c = '\x0b' || c = '\x0c'

/-- Python's `s.split()` (split on whitespace runs, no empty fields), on a
character list. -/
def wordsC : List Char → List (List Char)
  | [] => []
  | c :: rest =>
    if pyIsWs c then wordsC rest
    else
      match wordsC rest with
      | [] => [[c]]
      | h :: t =>
        match rest with
        | [] => [[c]]
        | r :: _ => if pyIsWs r then [c] :: h :: t else (c :: h) :: t

/-- Python's `line.split()` on a string. -/
def pySplitWs (s : String) : List String := (wordsC s.data).map fun cs => ⟨cs⟩

/-- Ends-with-newline test for a character list. -/
def endsNl (cs : List Char) : Bool := cs.getLast? = some '\n'

/-! ## Data model (`types.py`, `config.py`) -/

/-- Span of code located by the AST index (`types.AstSpan`). -/
structure AstSpan where
  file : String
  startLine : Int
  endLine : Int
  nodeType : String
  symbol : Option String := none
  score : Option Float := none

/-- Atomic step in the execution plan (`types.PlanStep`). -/
structure PlanStep where
  id : String
  intent : String
  targetSpans : List AstSpan
  constraints : List String
  idealOutcome : String
  check : String

/-- Unified diff proposal returned from the proposer (`types.DiffProposal`). -/
structure DiffProposal where
  stepId : String
  unifiedDiff : String
  rationale : Option String := none
deriving DecidableEq

/-- Execution context for a task (`types.TaskContext`); the dynamically typed
`metadata` dict is modelled as an opaque association list. -/
structure TaskContext where
  repoPath : String
  failingTests : List String
  testCmd : String
  targetedExpr : Option String := none
  instanceId : String := ""
  metadata : List (String × String) := []

/-- `config.SearchConfig`. -/
structure SearchConfig where
  maxSteps : Int := 4
  diffsPerStep : Int := 3
  finalists : Int := 2
  retriesPerStep : Int := 1
  investigationsEnabled : Bool := false
  useLandmarks : Bool := false

/-- `config.LimitsConfig`. -/
structure LimitsConfig where
  maxLocChanges : Int := 12
  maxFilesPerDiff : Int := 2
  slicePaddingLines : Int := 80

/-- `config.TnrConfig`. -/
structure TnrConfig where
  actionsPerTxn : Int := 3
  requireMuNonworsening : Bool := true

/-- `config.GateConfig`. -/
structure GateConfig where
  static : Bool := true
  targetedTests : Bool := true
  smoke : Bool := false

/-- `config.Config` (the model and logging sections play no role in the
verified core and are omitted). -/
structure Config where
  search : SearchConfig := {}
  limits : LimitsConfig := {}
  tnr : TnrConfig := {}
  gates : GateConfig := {}

/-! ## The diff validator (`validate.py`) -/

/-- Longest run of non-whitespace characters at the head of the list, the
shape of a greedy `[^\s]+` match. -/
def takeNonWs (cs : List Char) : List Char := cs.takeWhile fun c => !pyIsWs c

/-- Python's `line.strip()`. -/
def pyStrip (s : String) : String :=
  ⟨((s.data.dropWhile pyIsWs).reverse.dropWhile pyIsWs).reverse⟩

/-- Anchored match of `_DIFF_HEADER_RE`, the pattern
`^diff --git a/(?P<afile>[^\s]+) b/(?P<bfile>[^\s]+)`, returning the two
captured groups.  The first `[^\s]+` is a maximal non-whitespace run: any
shorter candidate is followed by a non-whitespace character, never by the
required literal ` b/`, so the greedy reading is the only possible match. -/
def parseDiffHeader (line : String) : Option (String × String) :=
  let cs := line.data
  if listPre "diff --git a/".data cs then
    let rest := cs.drop 13
    let af := takeNonWs rest
    if af.isEmpty then none
    else
      let rest2 := rest.drop af.length
      if listPre " b/".data rest2 then
        let bf := takeNonWs (rest2.drop 3)
        if bf.isEmpty then none else some (⟨af⟩, ⟨bf⟩)
      else none
  else none

/-- Numeric value of a run of decimal digits, as Python's `int()`. -/
def digitsToNat (ds : List Char) : Nat :=
  ds.foldl (fun n c => 10 * n + (c.toNat - '0'.toNat)) 0

/-- Anchored match of `_HUNK_HEADER_RE`, the pattern
`^@@ -(?P<old_start>\d+)(?:,(?P<old_count>\d+))? \+(?P<new_start>\d+)(?:,(?P<new_count>\d+))? @@`,
returning `(old_start, new_start)` — the only groups `ensure_within_limits`
reads.  A comma must be followed by at least one digit for the optional
count group to match; otherwise the required ` +` literal fails on the
comma, so the whole pattern fails. -/
def parseHunkHeader (line : String) : Option (Int × Int) :=
  let cs := line.data
  if listPre "@@ -".data cs then
    let r1 := cs.drop 4
    let d1 := r1.takeWhile Char.isDigit
    if d1.isEmpty then none
    else
      let r2 := r1.drop d1.length
      let r3 : Option (List Char) :=
        match r2 with
        | ',' :: r2' =>
          let dc := r2'.takeWhile Char.isDigit
          if dc.isEmpty then none else some (r2'.drop dc.length)
        | _ => some r2
      match r3 with
      | none => none
      | some r3 =>
        if listPre " +".data r3 then
          let r4 := r3.drop 2
          let d2 := r4.takeWhile Char.isDigit
          if d2.isEmpty then none
          else
            let r5 := r4.drop d2.length
            let r6 : Option (List Char) :=
              match r5 with
              | ',' :: r5' =>
                let dc := r5'.takeWhile Char.isDigit
                if dc.isEmpty then none else some (r5'.drop dc.length)
              | _ => some r5
            match r6 with
            | none => none
            | some r6 =>
              if listPre " @@".data r6 then some ((digitsToNat d1 : Int), (digitsToNat d2 : Int))
              else none
        else none
  else none

/-- Per-line loop of `require_unified_diff`: flag a stripped `+def`/`+class`
line that ends in `::`. -/
def checkDefLines : List String → Except String Unit
  | [] => .ok ()
  | line :: rest =>
    let stripped := pyStrip line
    if (pyStartsWith stripped "+def" || pyStartsWith stripped "+class") && pyEndsWith stripped "::"
    then .error "Suspicious double-colon in definition header."
    else checkDefLines rest

/-- `validate.require_unified_diff`. -/
def requireUnifiedDiff (diff : String) : Except String Unit :=
  if ¬ pyStartsWith diff "diff --git" then .error "Diff must start with 'diff --git'."
  else if ¬ hasAdjacentAt diff.data then .error "Diff must contain a hunk header '@@'."
  else checkDefLines (splitLinesS diff)

/-- `validate._count_changed_loc`: counts every line beginning `+` or `-`,
including `--- `/`+++ ` file header lines when present. -/
def countChangedLoc (diff : String) : Int :=
  (((splitLinesS diff).filter fun l => pyStartsWith l "+" || pyStartsWith l "-").length : Nat)

/-- `validate._touched_files`: the set of `bfile` groups of all diff headers,
as a duplicate-free list. -/
def touchedFiles (diff : String) : List String :=
  (((splitLinesS diff).filterMap parseDiffHeader).map Prod.snd).eraseDups

/-- `validate._span_map` flattened: the dict grouping by file is equivalent,
for the membership queries `_line_allowed` performs, to this flat list of
`(file, clamped start, clamped end)` triples. -/
def spanMap (targetSpans : List AstSpan) (padding : Int) : List (String × Int × Int) :=
  targetSpans.map fun s =>
    let start := max 1 (s.startLine - padding)
    (s.file, start, max start (s.endLine + padding))

/-- `validate._line_allowed`. -/
def lineAllowed (ranges : List (String × Int × Int)) (file : String) (line : Int) : Bool :=
  ranges.any fun r => r.1 == file && decide (r.2.1 ≤ line) && decide (line ≤ r.2.2)

/-- Python `set.add` on a duplicate-free string list. -/
def insertSet (s : String) (l : List String) : List String :=
  if l.contains s then l else l ++ [s]

/-- Python `set == set` on duplicate-free string lists. -/
def setEqStr (a b : List String) : Bool :=
  (a.all fun s => b.contains s) && (b.all fun s => a.contains s)

/-- Message of the out-of-span deletion error, the f-string
`f"Deletion at {current_file}:{old_line} outside allowed spans."`. -/
def delMsg (f : String) (o : Int) : String :=
  "Deletion at " ++ (f ++ (":" ++ (toString o ++ " outside allowed spans.")))

/-- Message of the out-of-span addition error, the f-string
`f"Addition at {current_file}:{new_line} outside allowed spans."`. -/
def addMsg (f : String) (n : Int) : String :=
  "Addition at " ++ (f ++ (":" ++ (toString n ++ " outside allowed spans.")))

/-- Message of the signature-change error. -/
def sigChangeMsg : String := "Public API signature change detected in diff."

/-- The def-set tracking of the walk (source lines 128–131 and 140–143):
`trackDef "-def " api line s` adds `line[1:].strip()` to the set `s` when the
line starts with the marker and API changes are not allowed. -/
def trackDef (marker : String) (api : Bool) (line : String) (s : List String) : List String :=
  if pyStartsWith line marker && !api then insertSet (pyStrip (line.drop 1)) s else s

/-- The line-walking loop of `ensure_within_limits` (source lines 88–147):
state is the current `bfile`, the old/new cursors, and the per-hunk removed
and added `def` line sets. -/
def walkLimits (ranges : List (String × Int × Int)) (allowApi : Bool) :
    List String → Option String → Option Int → Option Int → List String → List String →
    Except String Unit
  | [], _, _, _, _, _ => .ok ()
  | line :: rest, cf, oldL, newL, removedDefs, addedDefs =>
    match parseDiffHeader line with
    | some (_, bfile) => walkLimits ranges allowApi rest (some bfile) none none [] []
    | none =>
      if pyStartsWith line "@@" then
        match cf with
        | none => .error "Hunk appears before diff header."
        | some _ =>
          match parseHunkHeader line with
          | none => .error "Malformed hunk header in diff."
          | some (o, n) => walkLimits ranges allowApi rest cf (some o) (some n) [] []
      else if line == "" || cf.isNone then
        walkLimits ranges allowApi rest cf oldL newL removedDefs addedDefs
      else if pyStartsWith line " " then
        walkLimits ranges allowApi rest cf (oldL.map (· + 1)) (newL.map (· + 1)) removedDefs addedDefs
      else if pyStartsWith line "-" then
        match oldL with
        | none => .error "Deletion encountered before hunk header."
        | some o =>
          if ¬ lineAllowed ranges (cf.getD "") o then .error (delMsg (cf.getD "") o)
          else
            walkLimits ranges allowApi rest cf (some (o + 1)) newL
              (trackDef "-def " allowApi line removedDefs) addedDefs
      else if pyStartsWith line "+" then
        match newL with
        | none => .error "Addition encountered before hunk header."
        | some n =>
          if ¬ lineAllowed ranges (cf.getD "") n then .error (addMsg (cf.getD "") n)
          else
            if !(trackDef "+def " allowApi line addedDefs).isEmpty && !removedDefs.isEmpty &&
                !setEqStr (trackDef "+def " allowApi line addedDefs) removedDefs && !allowApi
            then .error sigChangeMsg
            else walkLimits ranges allowApi rest cf oldL (some (n + 1)) removedDefs
              (trackDef "+def " allowApi line addedDefs)
      else walkLimits ranges allowApi rest cf oldL newL removedDefs addedDefs

/-- `validate.ensure_within_limits`. -/
def ensureWithinLimits (diff : String) (allowedFiles : List String) (maxLoc maxFiles : Int)
    (targetSpans : List AstSpan) (paddingLines : Int := 0) (allowApiChange : Bool := false) :
    Except String Unit :=
  match requireUnifiedDiff diff with
  | .error e => .error e
  | .ok () =>
    let files := touchedFiles diff
    if files.isEmpty then .error "Diff must touch at least one file header."
    else if (files.length : Int) > maxFiles then .error "Diff touches too many files."
    else if ¬ files.all (fun f => allowedFiles.contains f) then
      .error "Diff touches files outside of allowed set."
    else if countChangedLoc diff > maxLoc then .error "Diff changes too many lines."
    else
      let spanFiles := targetSpans.map (·.file)
      if ¬ files.any (fun f => spanFiles.contains f) then
        .error "Diff does not touch any target span files."
      else walkLimits (spanMap targetSpans paddingLines) allowApiChange (splitLinesS diff)
        none none none [] []

/-! ## The VCS gateway (`vcs.py`) -/

/-- Line starting a file section, as `line.startswith("diff --git")`. -/
def isGitHeaderC (l : List Char) : Bool := listPre "diff --git".data l

/-- The loop of `vcs._normalize_diff` over the line list (character-list
lines).  After each `diff --git` line the two following positions are
inspected: an existing `--- ` line is kept, otherwise `--- {parts[2]}` is
inserted, and then likewise for `+++ {parts[3]}`.  Python's `parts[2]` /
`parts[3]` raise `IndexError` when the header has fewer than four
whitespace-separated fields; that uncaught exception is the `none` case. -/
def normalizeLinesC : List (List Char) → Option (List (List Char))
  | [] => some []
  | l :: rest =>
    if isGitHeaderC l then
      let parts := wordsC l
      match parts.get? 2, parts.get? 3 with
      | some aPath, some bPath =>
        match rest with
        | r1 :: rest1 =>
          if listPre "--- ".data r1 then
            match rest1 with
            | r2 :: rest2 =>
              if listPre "+++ ".data r2 then
                (fun out => l :: r1 :: r2 :: out) <$> normalizeLinesC rest2
              else
                (fun out => l :: r1 :: ("+++ ".data ++ bPath) :: out) <$>
                  normalizeLinesC (r2 :: rest2)
            | [] => some [l, r1, "+++ ".data ++ bPath]
          else if listPre "+++ ".data r1 then
            (fun out => l :: ("--- ".data ++ aPath) :: r1 :: out) <$> normalizeLinesC rest1
          else
            (fun out => l :: ("--- ".data ++ aPath) :: ("+++ ".data ++ bPath) :: out) <$>
              normalizeLinesC (r1 :: rest1)
        | [] => some [l, "--- ".data ++ aPath, "+++ ".data ++ bPath]
      | _, _ => none
    else (fun out => l :: out) <$> normalizeLinesC rest
termination_by ls => ls.length
decreasing_by all_goals simp_wf <;> omega

/-- `vcs._normalize_diff` on the character list of the diff: split into
lines, run the insertion loop, re-join with `"\n"`, and restore a trailing
newline exactly when the input had one and the joined text does not. -/
def normalizeChars (cs : List Char) : Option (List Char) :=
  match normalizeLinesC (splitChars cs) with
  | none => none
  | some out =>
    let text := joinNl out
    some (if endsNl cs && !endsNl text then text ++ ['\n'] else text)

/-- `vcs._normalize_diff`. -/
def normalizeDiff (diff : String) : Option String :=
  (normalizeChars diff.data).map fun cs => ⟨cs⟩

/-- Python's `text if text.endswith("\n") else text + "\n"` used by
`_apply_hunks` on inserted `+` payloads. -/
def pyEnsureNl (t : String) : String := if pyEndsWith t "\n" then t else t ++ "\n"

/-- The consumption loop of `vcs._apply_hunks`: `original` is the current
file read as `splitlines(keepends=True)`, the `Nat` is the `pointer` index
into it, and the first list argument walks the section's hunk lines.  Hunk
header lines are skipped without touching the pointer; a context line copies
`original[pointer]` (when in range) and advances; a `-` line advances without
copying; a `+` line inserts its payload (newline-terminated); any other line
is ignored. -/
def applyHunksGo (original : List String) : List String → Nat → List String
  | [], p => original.drop p
  | l :: ls, p =>
    if pyStartsWith l "@@" then applyHunksGo original ls p
    else if pyStartsWith l " " then
      if p < original.length then original.getD p "" :: applyHunksGo original ls (p + 1)
      else applyHunksGo original ls p
    else if pyStartsWith l "-" then applyHunksGo original ls (p + 1)
    else if pyStartsWith l "+" then pyEnsureNl (l.drop 1) :: applyHunksGo original ls p
    else applyHunksGo original ls p

/-- `vcs._apply_hunks` as a pure function from the file's keepends lines and
the section's hunk lines to the written file's lines: the loop above from
pointer `0`, with the untouched remainder `original[pointer:]` appended by
the loop's base case. -/
def applyHunksLines (original hunkLines : List String) : List String :=
  applyHunksGo original hunkLines 0

/-- A working tree: repo-relative path to file content. -/
abbrev WTree := List (String × String)

/-- One git commit: message and the tree it snapshots. -/
structure GitCommit where
  msg : String
  tree : WTree
deriving DecidableEq

/-- A repository: the commit list reachable from `HEAD` (most recent first)
plus the working tree. -/
structure Repo where
  commits : List GitCommit
  worktree : WTree
deriving DecidableEq

/-- WTree of the head commit of a commit list (empty tree when unborn). -/
def headTreeOf (cs : List GitCommit) : WTree :=
  (cs.head?.map GitCommit.tree).getD []

/-- WTree of `HEAD`. -/
def headTree (r : Repo) : WTree := headTreeOf r.commits

/-- `vcs.checkpoint`: `git rev-parse HEAD`, i.e. a name for the current
history, modelled as the history itself. -/
def checkpoint (r : Repo) : List GitCommit := r.commits

/-- `vcs.revert`: `git reset --hard <commit>` followed by `git clean -fd` —
history becomes the checkpointed one and the working tree becomes that
commit's tree exactly. -/
def revertTo (saved : List GitCommit) : Repo :=
  { commits := saved, worktree := headTreeOf saved }

/-- `vcs.commit`: `git add -A` then `git commit -m msg`.  `git commit` exits
non-zero when the staged tree equals `HEAD`'s (nothing to commit), which
`_run_git` turns into an uncaught `RuntimeError`: the `none` case. -/
def gitCommit (r : Repo) (msg : String) : Option Repo :=
  if r.worktree = headTree r then none
  else some { commits := ⟨msg, r.worktree⟩ :: r.commits, worktree := r.worktree }

/-! ## The TNR executor (`tnr.py`) -/

/-- Outcome of `vcs.apply_diff` as seen from `txn_patch`: success with the
new working tree, a `RuntimeError` (caught at line 77), or any other
exception from the manual fallback (uncaught, hence fatal). -/
inductive ApplyOutcome where
  | ok (t : WTree)
  | fail (msg : String)
  | fatal (msg : String)

/-- Oracles for the machine effects `txn_patch` invokes: applying a diff,
the two gates of `gates.py`, and `_measure_mu`'s `git diff --numstat` churn
of the working tree against `HEAD`'s tree. -/
structure Env where
  applyDiff : String → WTree → ApplyOutcome
  staticGate : WTree → Bool × String
  targetedGate : String → WTree → Bool × String
  measureMu : WTree → WTree → Nat

/-- Observable events of one `txn_patch` call, in invocation order. -/
inductive TnrEv where
  | baselineTargeted (ok : Bool)
  | measureMuPre (v : Nat)
  | validateFail
  | applyOk
  | applyFail
  | measureMuCand (v : Nat)
  | muRevertEarly
  | staticRun (ok : Bool)
  | targetedRun (ok : Bool)
  | muRevertLate
  | commitDone
  | finalRevert
deriving DecidableEq

/-- `tnr.TransactionResult`. -/
structure TransactionResult where
  committed : Bool
  appliedDiff : Option DiffProposal
  muPre : Nat
  muPost : Nat
  logs : List String
deriving DecidableEq

/-- Result of one attempt of the `txn_patch` proposal loop. -/
inductive AttemptRes where
  | committed (muPost : Nat)
  | notCommitted
deriving DecidableEq

/-- Commit message `f"txn:{step.id}"`. -/
def commitMsg (step : PlanStep) : String := "txn:" ++ step.id

/-- Steps 6–7 of one attempt (`tnr.py` lines 106–112): the final
µ-non-worsening check, then commit. -/
def attemptFinish (cfg : Config) (step : PlanStep) (head : List GitCommit)
    (muPre : Nat) (repo1 : Repo) (muPost : Nat) (evs : List TnrEv) :
    Except String (Repo × AttemptRes × List TnrEv × List String) :=
  if cfg.tnr.requireMuNonworsening ∧ muPost > muPre then
    .ok (revertTo head, .notCommitted, evs ++ [.muRevertLate],
      [s!"mu worsened from {muPre} to {muPost}; rolling back."])
  else
    match gitCommit repo1 (commitMsg step) with
    | none => .error "git commit failed"
    | some r2 => .ok (r2, .committed muPost, evs ++ [.commitDone], [])

/-- Step 5 of one attempt (`tnr.py` lines 97–105): targeted gate when
enabled, else `mu_post := mu_candidate` (the line-105 `_measure_mu` fallback
is unreachable: `mu_candidate` is always set when targeted tests are off). -/
def attemptGates (env : Env) (cfg : Config) (ctx : TaskContext) (step : PlanStep)
    (head : List GitCommit) (muPre : Nat) (repo1 : Repo) (muCand : Option Nat)
    (evs : List TnrEv) :
    Except String (Repo × AttemptRes × List TnrEv × List String) :=
  if cfg.gates.targetedTests then
    match env.targetedGate ctx.testCmd repo1.worktree with
    | (ok, out) =>
      if ¬ ok then
        .ok (revertTo head, .notCommitted, evs ++ [.targetedRun false],
          [s!"targeted tests failed: {pyStrip out}"])
      else attemptFinish cfg step head muPre repo1 0 (evs ++ [.targetedRun true])
  else
    attemptFinish cfg step head muPre repo1
      (muCand.getD (env.measureMu (headTree repo1) repo1.worktree)) evs

/-- Step 4 of one attempt (`tnr.py` lines 90–95): static gate when enabled. -/
def attemptStatic (env : Env) (cfg : Config) (ctx : TaskContext) (step : PlanStep)
    (head : List GitCommit) (muPre : Nat) (repo1 : Repo) (muCand : Option Nat)
    (evs : List TnrEv) :
    Except String (Repo × AttemptRes × List TnrEv × List String) :=
  if cfg.gates.static then
    match env.staticGate repo1.worktree with
    | (ok, out) =>
      if ¬ ok then
        .ok (revertTo head, .notCommitted, evs ++ [.staticRun false],
          [s!"static checks failed: {pyStrip out}"])
      else attemptGates env cfg ctx step head muPre repo1 muCand (evs ++ [.staticRun true])
  else attemptGates env cfg ctx step head muPre repo1 muCand evs

/-- One attempt of the `txn_patch` proposal loop (`tnr.py` lines 62–112):
validate, apply, early µ check when targeted tests are off (lines 82–88),
then the gates and the final µ check. -/
def attemptOne (env : Env) (cfg : Config) (ctx : TaskContext) (step : PlanStep)
    (head : List GitCommit) (muPre : Nat) (repo : Repo) (proposal : DiffProposal) :
    Except String (Repo × AttemptRes × List TnrEv × List String) :=
  let allowedFiles := (step.targetSpans.map (·.file)).eraseDups
  match ensureWithinLimits proposal.unifiedDiff allowedFiles cfg.limits.maxLocChanges
      cfg.limits.maxFilesPerDiff step.targetSpans cfg.limits.slicePaddingLines false with
  | .error e => .ok (repo, .notCommitted, [.validateFail], [s!"validation failed: {e}"])
  | .ok () =>
    match env.applyDiff proposal.unifiedDiff repo.worktree with
    | .fatal m => .error m
    | .fail m => .ok (revertTo head, .notCommitted, [.applyFail], [s!"git apply failed: {m}"])
    | .ok t =>
      let repo1 : Repo := { repo with worktree := t }
      if ¬ cfg.gates.targetedTests then
        let mc := env.measureMu (headTree repo1) repo1.worktree
        if cfg.tnr.requireMuNonworsening ∧ mc > muPre then
          .ok (revertTo head, .notCommitted, [.applyOk, .measureMuCand mc, .muRevertEarly],
            [s!"mu worsened from {muPre} to {mc}; rolling back."])
        else attemptStatic env cfg ctx step head muPre repo1 (some mc)
          [.applyOk, .measureMuCand mc]
      else attemptStatic env cfg ctx step head muPre repo1 none [.applyOk]

/-- The proposal loop of `txn_patch` (`tnr.py` lines 58–115), with the
1-based attempt counter and the action budget `max(1, actions_per_txn)`;
falls through to the unconditional final `revert(head)` of line 114. -/
def txnLoop (env : Env) (cfg : Config) (ctx : TaskContext) (step : PlanStep)
    (head : List GitCommit) (muPre : Nat) :
    List DiffProposal → Int → Repo → List String → List TnrEv →
    Except String (Repo × TransactionResult × List TnrEv)
  | [], _, _, logs, evs =>
    .ok (revertTo head, ⟨false, none, muPre, muPre, logs⟩, evs ++ [.finalRevert])
  | p :: ps, attempt, repo, logs, evs =>
    if attempt > max 1 cfg.tnr.actionsPerTxn then
      .ok (revertTo head,
        ⟨false, none, muPre, muPre,
          logs ++ ["Reached transaction action budget; stopping attempts."]⟩,
        evs ++ [.finalRevert])
    else
      match attemptOne env cfg ctx step head muPre repo p with
      | .error e => .error e
      | .ok (repo', .committed muPost, evs', logs') =>
        .ok (repo', ⟨true, some p, muPre, muPost, logs ++ logs'⟩, evs ++ evs')
      | .ok (repo', .notCommitted, evs', logs') =>
        txnLoop env cfg ctx step head muPre ps (attempt + 1) repo' (logs ++ logs') (evs ++ evs')

/-- `tnr.txn_patch`: checkpoint, µ baseline (targeted gate or `_measure_mu`),
then the proposal loop. -/
def txnPatch (env : Env) (cfg : Config) (ctx : TaskContext) (step : PlanStep)
    (proposals : List DiffProposal) (repo : Repo) :
    Except String (Repo × TransactionResult × List TnrEv) :=
  let head := checkpoint repo
  if cfg.gates.targetedTests then
    match env.targetedGate ctx.testCmd repo.worktree with
    | (ok, out) =>
      txnLoop env cfg ctx step head (if ok then 0 else 1) proposals 1 repo
        (if ok then [] else [s!"baseline targeted tests failing: {pyStrip out}"])
        [.baselineTargeted ok]
  else
    let muPre := env.measureMu (headTree repo) repo.worktree
    txnLoop env cfg ctx step head muPre proposals 1 repo [] [.measureMuPre muPre]

/-! ## The controller's targeted-command derivation (`controller.py`) -/

/-- The name-extraction loop of `_derive_test_cmd`: skip empty node ids,
take the part after the last `::`, skip empty names. -/
def extractTestNames (failingTests : List String) : List String :=
  failingTests.filterMap fun nodeid =>
    if nodeid == "" then none
    else
      let name := (nodeid.splitOn "::").getLastD nodeid
      if name == "" then none else some name

/-- Insertion into an ascending list under the code-point order Python's
`sorted` uses on strings. -/
def insertSorted (s : String) : List String → List String
  | [] => [s]
  | x :: xs => if x < s then x :: insertSorted s xs else s :: x :: xs

/-- Ascending sort, `sorted(...)` on strings. -/
def sortStrings (l : List String) : List String := l.foldr insertSorted []

/-- `controller._derive_test_cmd`; `sorted(set(names))` is the ascending
enumeration of the distinct names. -/
def deriveTestCmd (ctx : TaskContext) (cfg : Config) : String :=
  if cfg.gates.targetedTests && !ctx.failingTests.isEmpty then
    let names := extractTestNames ctx.failingTests
    if !names.isEmpty then
      "pytest -q -k \"" ++ " or ".intercalate (sortStrings names.eraseDups) ++ "\""
    else ctx.testCmd
  else ctx.testCmd

/-! ## Claim-side predicates

The definitions in this section transcribe the wording of spec claims (not
the source); each is compared against the corresponding source embedding by
the theorems below. -/

/-- Claim-side padded intervals `[s.start_line - padding, s.end_line + padding]`
exactly as the spec words them (no clamping). -/
def claimPadRanges (targetSpans : List AstSpan) (padding : Int) : List (String × Int × Int) :=
  targetSpans.map fun s => (s.file, s.startLine - padding, s.endLine + padding)

/-- Claim-side scan for a bounded-scope violation, following the spec's
cursor rules: the current file is set by each recognized `diff --git` header;
cursors are re-seeded from each well-formed hunk header (an ill-formed one
leaves them unseeded), advance on context lines (old-only on deletions,
new-only on additions); a `+`/`-` body line whose cursor value falls outside
the padded spans of the current file — or which occurs after a file header
but before any hunk header — is a violation.  Lines before the first
recognized file header have no current file and are not scanned. -/
def specScan (ranges : List (String × Int × Int)) :
    List String → Option String → Option Int → Option Int → Bool
  | [], _, _, _ => false
  | line :: rest, cf, oldL, newL =>
    match parseDiffHeader line with
    | some (_, bfile) => specScan ranges rest (some bfile) none none
    | none =>
      if pyStartsWith line "@@" then
        match cf with
        | none => specScan ranges rest cf none none
        | some _ =>
          match parseHunkHeader line with
          | none => specScan ranges rest cf none none
          | some (o, n) => specScan ranges rest cf (some o) (some n)
      else if line == "" || cf.isNone then specScan ranges rest cf oldL newL
      else if pyStartsWith line " " then
        specScan ranges rest cf (oldL.map (· + 1)) (newL.map (· + 1))
      else if pyStartsWith line "-" then
        match oldL with
        | none => true
        | some o =>
          if ¬ lineAllowed ranges (cf.getD "") o then true
          else specScan ranges rest cf (some (o + 1)) newL
      else if pyStartsWith line "+" then
        match newL with
        | none => true
        | some n =>
          if ¬ lineAllowed ranges (cf.getD "") n then true
          else specScan ranges rest cf oldL (some (n + 1))
      else specScan ranges rest cf oldL newL

/-- Claim-side test that some `+`/`-` line (not a `--- `/`+++ ` file header
line) occurs before the first hunk header of the diff. -/
def changeBeforeFirstHunk : List String → Bool
  | [] => false
  | l :: ls =>
    if pyStartsWith l "@@" then false
    else if (pyStartsWith l "-" || pyStartsWith l "+") &&
        !pyStartsWith l "--- " && !pyStartsWith l "+++ " then true
    else changeBeforeFirstHunk ls

/-- Incremental signature-change trigger (the amended C4 condition): walking
the diff with the validator's def-set tracking, some added line is reached at
which the accumulated removed-`def` and added-`def` sets of the current hunk
are both non-empty and unequal. -/
def sigTrigger : List String → Bool → List String → List String → Bool
  | [], _, _, _ => false
  | line :: rest, cfSeen, rem, add =>
    match parseDiffHeader line with
    | some _ => sigTrigger rest true [] []
    | none =>
      if pyStartsWith line "@@" then sigTrigger rest cfSeen [] []
      else if line == "" || !cfSeen then sigTrigger rest cfSeen rem add
      else if pyStartsWith line " " then sigTrigger rest cfSeen rem add
      else if pyStartsWith line "-" then
        let rem' := if pyStartsWith line "-def " then insertSet (pyStrip (line.drop 1)) rem else rem
        sigTrigger rest cfSeen rem' add
      else if pyStartsWith line "+" then
        let add' := if pyStartsWith line "+def " then insertSet (pyStrip (line.drop 1)) add else add
        if !add'.isEmpty && !rem.isEmpty && !setEqStr add' rem then true
        else sigTrigger rest cfSeen rem add'
      else sigTrigger rest cfSeen rem add

/-- Set equality up to one side being empty. -/
def setBalanced (rem add : List String) : Bool :=
  rem.isEmpty || add.isEmpty || setEqStr rem add

/-- Claim-side per-hunk def-set balance (the condition claim C4 asserts is
equivalent to acceptance): within every hunk, the final sets of removed and
added `def` lines are equal or one of them is empty. -/
def hunkDefSetsBalanced : List String → List String → List String → Bool
  | [], rem, add => setBalanced rem add
  | l :: ls, rem, add =>
    if (parseDiffHeader l).isSome || pyStartsWith l "@@" then
      setBalanced rem add && hunkDefSetsBalanced ls [] []
    else if pyStartsWith l "-def " then
      hunkDefSetsBalanced ls (insertSet (pyStrip (l.drop 1)) rem) add
    else if pyStartsWith l "+def " then
      hunkDefSetsBalanced ls rem (insertSet (pyStrip (l.drop 1)) add)
    else hunkDefSetsBalanced ls rem add

/-- Claim-side change count of C6: `+`/`-` lines not counting the `--- ` and
`+++ ` file header lines. -/
def bodyChangedLoc (diff : String) : Int :=
  (((splitLinesS diff).filter fun l =>
    (pyStartsWith l "+" || pyStartsWith l "-") &&
    !pyStartsWith l "--- " && !pyStartsWith l "+++ ").length : Nat)

/-- Claim-side correct unified-diff application at the hunk headers' stated
positions: each well-formed hunk header re-seeds the cursor to its stated
old-side start (copying the intervening original lines), context lines copy
and advance, `-` consumes, `+` inserts, and the untouched remainder is
appended at the end. -/
def specApplyReseed (original : List String) : List String → Nat → List String
  | [], p => original.drop p
  | l :: ls, p =>
    match parseHunkHeader l with
    | some (o, _) =>
      let tgt := (o - 1).toNat
      if p ≤ tgt then (original.drop p).take (tgt - p) ++ specApplyReseed original ls tgt
      else specApplyReseed original ls p
    | none =>
      if pyStartsWith l " " then
        if p < original.length then original.getD p "" :: specApplyReseed original ls (p + 1)
        else specApplyReseed original ls p
      else if pyStartsWith l "-" then specApplyReseed original ls (p + 1)
      else if pyStartsWith l "+" then pyEnsureNl (l.drop 1) :: specApplyReseed original ls p
      else specApplyReseed original ls p

/-- Claim-side correct application of a file section from the top. -/
def specApplyCorrect (original hunkLines : List String) : List String :=
  specApplyReseed original hunkLines 0

/-- State of the amended-C7 description of the fallback: accumulated output
and the single (never re-seeded) cursor. -/
structure FallbackSt where
  out : List String
  ptr : Nat

/-- One line of the amended-C7 description: hunk headers are skipped without
touching the cursor; a context line copies the original line at the cursor
(when in range) and advances; a `-` line advances without copying; a `+`
line appends its newline-terminated payload; other lines are ignored. -/
def specFallbackStep (original : List String) (st : FallbackSt) (l : String) : FallbackSt :=
  if pyStartsWith l "@@" then st
  else if pyStartsWith l " " then
    if st.ptr < original.length
    then { out := st.out ++ [original.getD st.ptr ""], ptr := st.ptr + 1 }
    else st
  else if pyStartsWith l "-" then { st with ptr := st.ptr + 1 }
  else if pyStartsWith l "+" then { st with out := st.out ++ [pyEnsureNl (l.drop 1)] }
  else st

/-- Amended-C7 description of the whole fallback on one file section: fold
the per-line step over the hunk lines and append the unconsumed remainder of
the original file. -/
def specFallbackApply (original hunkLines : List String) : List String :=
  let st := hunkLines.foldl (specFallbackStep original) ⟨[], 0⟩
  st.out ++ original.drop st.ptr

/-- The `--- {parts[2]}` line the normalizer inserts after a header. -/
def mkMinusLine (h : List Char) : List Char := "--- ".data ++ ((wordsC h).getD 2 [])

/-- The `+++ {parts[3]}` line the normalizer inserts after a header. -/
def mkPlusLine (h : List Char) : List Char := "+++ ".data ++ ((wordsC h).getD 3 [])

/-- Claim-side relation of C9 between the lines of a diff and the lines of
its normalization: after each `diff --git` line the missing `--- `/`+++ `
lines are inserted (an existing one is kept), and every other line is kept
unchanged in order. -/
inductive NormRel : List (List Char) → List (List Char) → Prop where
  | nil : NormRel [] []
  | keep {l ls out} : isGitHeaderC l = false → NormRel ls out →
      NormRel (l :: ls) (l :: out)
  | both {h r1 r2 ls out} : isGitHeaderC h = true → listPre "--- ".data r1 = true →
      listPre "+++ ".data r2 = true → NormRel ls out →
      NormRel (h :: r1 :: r2 :: ls) (h :: r1 :: r2 :: out)
  | keepMinusInsPlus {h r1 ls out} : isGitHeaderC h = true →
      listPre "--- ".data r1 = true →
      (∀ r, ls.head? = some r → listPre "+++ ".data r = false) → NormRel ls out →
      NormRel (h :: r1 :: ls) (h :: r1 :: mkPlusLine h :: out)
  | insMinusKeepPlus {h r2 ls out} : isGitHeaderC h = true →
      listPre "--- ".data r2 = false → listPre "+++ ".data r2 = true → NormRel ls out →
      NormRel (h :: r2 :: ls) (h :: mkMinusLine h :: r2 :: out)
  | insBoth {h ls out} : isGitHeaderC h = true →
      (∀ r, ls.head? = some r → listPre "--- ".data r = false ∧ listPre "+++ ".data r = false) →
      NormRel ls out → NormRel (h :: ls) (h :: mkMinusLine h :: mkPlusLine h :: out)

/-- Well-formedness of the `diff --git` lines of a line list: each has at
least the four whitespace-separated fields `parts[0..3]` the normalizer
indexes (C9's amended hypothesis). -/
def linesWF (ls : List (List Char)) : Bool :=
  ls.all fun l => !isGitHeaderC l || decide (4 ≤ (wordsC l).length)

/-- A line list in normalized shape: every `diff --git` line is immediately
followed by a `--- ` line and then a `+++ ` line. -/
def normalizedLines : List (List Char) → Bool
  | [] => true
  | l :: ls =>
    if isGitHeaderC l then
      match ls with
      | r1 :: r2 :: rest =>
        listPre "--- ".data r1 && listPre "+++ ".data r2 && normalizedLines rest
      | _ => false
    else normalizedLines ls
termination_by ls => ls.length
decreasing_by all_goals simp_wf <;> omega

/-- No element contains a newline. -/
def noNlLines (ls : List (List Char)) : Bool :=
  ls.all fun l => !l.contains '\n'

/-! ## Concrete instances used by counterexamples and witnesses -/

/-- Target span `mod.py:1-2`. -/
def spanM : AstSpan := { file := "mod.py", startLine := 1, endLine := 2, nodeType := "stmt" }

/-- Target span `mod.py:1-4`. -/
def spanM4 : AstSpan := { file := "mod.py", startLine := 1, endLine := 4, nodeType := "stmt" }

/-- Target span `m:1-2`. -/
def spanSmall : AstSpan := { file := "m", startLine := 1, endLine := 2, nodeType := "stmt" }

/-- A diff whose first line starts with `diff --git` without matching the
header pattern, so its `-rogue` line precedes every recognized header and
every hunk header. -/
def d3 : String :=
  "diff --git x y\n-rogue\ndiff --git a/mod.py b/mod.py\n@@ -1,1 +1,1 @@\n-a\n+b\n"

/-- A diff with an out-of-span deletion at `mod.py:7`. -/
def d3w : String := "diff --git a/mod.py b/mod.py\n@@ -7,1 +7,1 @@\n-x\n+y\n"

/-- A single hunk that removes `def f():` and `def g():` and adds both back:
its final removed-def and added-def sets are equal. -/
def d4 : String :=
  "diff --git a/mod.py b/mod.py\n@@ -1,4 +1,4 @@\n-def f():\n-def g():\n+def f():\n+def g():\n"

/-- A diff with `--- `/`+++ ` file header lines and two changed body lines. -/
def d6 : String :=
  "diff --git a/mod.py b/mod.py\n--- a/mod.py\n+++ b/mod.py\n@@ -1,1 +1,1 @@\n-a\n+b\n"

/-- A fully valid one-hunk diff against file `m`. -/
def dOK : String := "diff --git a/m b/m\n@@ -1,1 +1,1 @@\n-a\n+b\n"

/-- Oracle environment in which everything succeeds: applying a diff yields
the tree `[("m", "b\n")]`, both gates pass and µ measures 0. -/
def envA : Env :=
  { applyDiff := fun _ _ => .ok [("m", "b\n")]
    staticGate := fun _ => (true, "")
    targetedGate := fun _ _ => (true, "")
    measureMu := fun _ _ => 0 }

/-- Oracle environment for the C5 counterexample: the applied tree measures
µ = 5 while everything else measures 0, and both gates pass. -/
def env5 : Env :=
  { applyDiff := fun _ _ => .ok [("m", "B\n")]
    staticGate := fun _ => (true, "")
    targetedGate := fun _ _ => (true, "")
    measureMu := fun _ w => if w = [("m", "B\n")] then 5 else 0 }

/-- Config with both gates disabled (µ is measured from the tree). -/
def cfgNT : Config := { gates := { static := false, targetedTests := false } }

/-- Config with the static gate enabled but targeted tests disabled. -/
def cfg5 : Config := { gates := { static := true, targetedTests := false } }

/-- The default config (both gates enabled). -/
def cfgD : Config := {}

/-- A repository whose working tree differs from `HEAD`'s tree. -/
def repoDirty : Repo :=
  { commits := [⟨"init", [("f.txt", "old\n")]⟩], worktree := [("f.txt", "dirty\n")] }

/-- A clean repository containing the single file `m`. -/
def repoClean : Repo :=
  { commits := [⟨"init", [("m", "a\n")]⟩], worktree := [("m", "a\n")] }

/-- A plain task context. -/
def ctxA : TaskContext :=
  { repoPath := "r", failingTests := [], testCmd := "pytest -q", targetedExpr := none,
    instanceId := "i" }

/-- A task context whose failing-test list holds one empty node id. -/
def ctxC8 : TaskContext :=
  { repoPath := "r", failingTests := [""], testCmd := "pytest -q", targetedExpr := none,
    instanceId := "i" }

/-- A plan step targeting `m:1-2`. -/
def stepA : PlanStep :=
  { id := "s1", intent := "", targetSpans := [spanSmall], constraints := [],
    idealOutcome := "", check := "" }

/-- A proposal carrying the valid diff `dOK`. -/
def pOK : DiffProposal := { stepId := "s1", unifiedDiff := dOK }

/-- Original keepends lines for the C7 counterexample. -/
def origC7 : List String := ["a\n", "b\n", "c\n"]

/-- Hunk lines of a section whose single hunk is stated at old line 3. -/
def hunkC7 : List String := ["@@ -3,1 +3,1 @@", "-c", "+C"]

/-- A well-formed diff whose header lacks the `--- `/`+++ ` lines. -/
def d9 : String := "diff --git a/m b/m\n@@ -1,1 +1,1 @@\n-a\n+b\n"


/-! # Proofs

## Basic lemmas about the utilities -/

theorem listPre_append (p rest : List Char) : listPre p (p ++ rest) = true := by
  induction p with
  | nil => rfl
  | cons a as ih => simp [listPre, ih]

theorem strDataAppend (a b : String) : (a ++ b).data = a.data ++ b.data := by
  cases a; cases b; rfl

theorem splitAtNl_ne_nil (cs : List Char) : splitAtNl cs ≠ [] := by
  induction cs with
  | nil => simp [splitAtNl]
  | cons c rest ih =>
    by_cases h : c = '\n'
    · simp [splitAtNl, h]
    · simp only [splitAtNl, if_neg h]
      cases hrec : splitAtNl rest with
      | nil => simp
      | cons h t => simp

theorem joinNl_splitAtNl (cs : List Char) : joinNl (splitAtNl cs) = cs := by
  induction cs with
  | nil => rfl
  | cons c rest ih =>
    by_cases h : c = '\n'
    · subst h
      simp only [splitAtNl, if_pos rfl]
      cases hrec : splitAtNl rest with
      | nil => exact absurd hrec (splitAtNl_ne_nil rest)
      | cons a t =>
        rw [hrec] at ih
        simp [joinNl, ih]
    · simp only [splitAtNl, if_neg h]
      cases hrec : splitAtNl rest with
      | nil => exact absurd hrec (splitAtNl_ne_nil rest)
      | cons a t =>
        rw [hrec] at ih
        cases t with
        | nil => simp_all [joinNl]
        | cons b t' => simp_all [joinNl]

/-- Elements produced by `splitAtNl` contain no newline character. -/
theorem splitAtNl_no_nl (cs : List Char) :
    ∀ l ∈ splitAtNl cs, '\n' ∉ l := by
  induction cs with
  | nil => intro l hl; simp [splitAtNl] at hl; simp [hl]
  | cons c rest ih =>
    intro l hl
    by_cases h : c = '\n'
    · simp only [splitAtNl, if_pos h, List.mem_cons] at hl
      rcases hl with rfl | hl
      · simp
      · exact ih l hl
    · simp only [splitAtNl, if_neg h] at hl
      cases hrec : splitAtNl rest with
      | nil => exact absurd hrec (splitAtNl_ne_nil rest)
      | cons a t =>
        rw [hrec] at hl
        simp only [List.mem_cons] at hl
        rcases hl with rfl | hl
        · intro hmem
          simp only [List.mem_cons] at hmem
          rcases hmem with rfl | hmem
          · exact h rfl
          · exact ih a (by rw [hrec]; exact List.mem_cons_self a t) hmem
        · exact ih l (by rw [hrec]; exact List.mem_cons_of_mem a hl)


/-! ## Claim C8: targeted command narrowing -/

theorem extractTestNames_nil : extractTestNames [] = [] := rfl

theorem extractTestNames_ne_nil {l : List String} (h : extractTestNames l ≠ []) : l ≠ [] := by
  intro hl
  rw [hl] at h
  exact h rfl

/-- Claim C8 (amended): `_derive_test_cmd` returns exactly the narrowed
command `pytest -q -k "<expr>"` — where `<expr>` joins with ` or ` the
deduplicated, sorted non-empty trailing `::`-components of the non-empty
failing-test node ids — precisely when `gates.targeted_tests` is enabled and
at least one node id contributes such a name; in every other case (including
a non-empty `failing_tests` list whose entries are all empty or end in `::`)
it returns `ctx.test_cmd` unchanged. -/
theorem claim_C8_derive_test_cmd (ctx : TaskContext) (cfg : Config) :
    deriveTestCmd ctx cfg =
      if cfg.gates.targetedTests && !(extractTestNames ctx.failingTests).isEmpty then
        "pytest -q -k \"" ++
          " or ".intercalate (sortStrings (extractTestNames ctx.failingTests).eraseDups) ++ "\""
      else ctx.testCmd := by
  unfold deriveTestCmd
  cases hT : cfg.gates.targetedTests with
  | false => simp
  | true =>
    cases hE : ctx.failingTests with
    | nil => simp [extractTestNames_nil]
    | cons a t =>
      rw [← hE]
      have hne : ctx.failingTests.isEmpty = false := by rw [hE]; rfl
      simp only [hne, Bool.not_false, Bool.and_true, Bool.true_and]
      rfl

/-! ## Claim C7: manual apply fallback -/

theorem listPre_trans_append (p q cs : List Char) (h : listPre (p ++ q) cs = true) :
    listPre p cs = true := by
  induction p generalizing cs with
  | nil => rfl
  | cons a as ih =>
    cases cs with
    | nil => simp [listPre] at h
    | cons b bs =>
      simp only [List.cons_append, listPre, Bool.and_eq_true] at h ⊢
      exact ⟨h.1, ih bs h.2⟩

theorem parseHunkHeader_startsAt {l : String} {o n : Int}
    (h : parseHunkHeader l = some (o, n)) : pyStartsWith l "@@" = true := by
  unfold parseHunkHeader at h
  by_cases hp : listPre "@@ -".data l.data = true
  · have : listPre ("@@".data ++ " -".data) l.data = true := hp
    exact listPre_trans_append _ _ _ this
  · simp [hp] at h

theorem applyHunksGo_foldl (original : List String) :
    ∀ (ls : List String) (p : Nat) (acc : List String),
      acc ++ applyHunksGo original ls p =
        (ls.foldl (specFallbackStep original) ⟨acc, p⟩).out ++
          original.drop (ls.foldl (specFallbackStep original) ⟨acc, p⟩).ptr := by
  intro ls
  induction ls with
  | nil => intro p acc; rfl
  | cons l ls ih =>
    intro p acc
    simp only [applyHunksGo, List.foldl_cons, specFallbackStep]
    split
    · exact ih p acc
    · split
      · split
        · rw [List.append_cons]
          exact ih (p + 1) (acc ++ [original.getD p ""])
        · exact ih p acc
      · split
        · exact ih (p + 1) acc
        · split
          · rw [List.append_cons]
            exact ih p (acc ++ [pyEnsureNl (l.drop 1)])
          · exact ih p acc

theorem applyHunksGo_eq_reseed (original : List String) :
    ∀ (ls : List String) (p : Nat), (∀ l ∈ ls, parseHunkHeader l = none) →
      applyHunksGo original ls p = specApplyReseed original ls p := by
  intro ls
  induction ls with
  | nil => intro p _; rfl
  | cons l ls ih =>
    intro p hno
    have hl : parseHunkHeader l = none := hno l (List.mem_cons_self l ls)
    have hrest : ∀ x ∈ ls, parseHunkHeader x = none := fun x hx =>
      hno x (List.mem_cons_of_mem l hx)
    simp only [applyHunksGo, specApplyReseed, hl]
    by_cases h1 : pyStartsWith l "@@" = true
    · have h2 : pyStartsWith l " " = false := by
        cases hc : pyStartsWith l " " with
        | false => rfl
        | true =>
          exfalso
          unfold pyStartsWith at h1 hc
          cases hd : l.data with
          | nil => rw [hd] at h1; simp [listPre] at h1
          | cons c cs =>
            rw [hd] at h1 hc
            simp only [listPre, Bool.and_eq_true, beq_iff_eq] at h1 hc
            rw [← h1.1] at hc
            exact absurd hc.1 (by decide)
      have h3 : pyStartsWith l "-" = false := by
        cases hc : pyStartsWith l "-" with
        | false => rfl
        | true =>
          exfalso
          unfold pyStartsWith at h1 hc
          cases hd : l.data with
          | nil => rw [hd] at h1; simp [listPre] at h1
          | cons c cs =>
            rw [hd] at h1 hc
            simp only [listPre, Bool.and_eq_true, beq_iff_eq] at h1 hc
            rw [← h1.1] at hc
            exact absurd hc.1 (by decide)
      have h4 : pyStartsWith l "+" = false := by
        cases hc : pyStartsWith l "+" with
        | false => rfl
        | true =>
          exfalso
          unfold pyStartsWith at h1 hc
          cases hd : l.data with
          | nil => rw [hd] at h1; simp [listPre] at h1
          | cons c cs =>
            rw [hd] at h1 hc
            simp only [listPre, Bool.and_eq_true, beq_iff_eq] at h1 hc
            rw [← h1.1] at hc
            exact absurd hc.1 (by decide)
      simp only [h1, h2, h3, h4, if_true, if_false]
      exact ih p hrest
    · simp only [h1, if_false]
      by_cases h2 : pyStartsWith l " " = true
      · by_cases h3 : p < original.length
        · simp [h1, h2, h3, ih (p + 1) hrest]
        · simp [h1, h2, h3, ih p hrest]
      · by_cases h3 : pyStartsWith l "-" = true
        · simp [h1, h2, h3, ih (p + 1) hrest]
        · by_cases h4 : pyStartsWith l "+" = true
          · simp [h1, h2, h3, h4, ih p hrest]
          · simp [h1, h2, h3, h4, ih p hrest]

/-! ## Error-message structure of the validator -/

theorem delMsg_take2 (f : String) (o : Int) : (delMsg f o).data.take 2 = ['D', 'e'] := by
  rw [delMsg, strDataAppend]
  rfl

theorem addMsg_take2 (f : String) (n : Int) : (addMsg f n).data.take 2 = ['A', 'd'] := by
  rw [addMsg, strDataAppend]
  rfl

theorem delMsg_ne_sig (f : String) (o : Int) : delMsg f o ≠ sigChangeMsg := by
  intro h
  have h2 := delMsg_take2 f o
  rw [h] at h2
  exact absurd h2 (by decide)

theorem addMsg_ne_sig (f : String) (n : Int) : addMsg f n ≠ sigChangeMsg := by
  intro h
  have h2 := addMsg_take2 f n
  rw [h] at h2
  exact absurd h2 (by decide)

theorem delMsg_ne_budget (f : String) (o : Int) :
    delMsg f o ≠ "Diff changes too many lines." := by
  intro h
  have h2 := delMsg_take2 f o
  rw [h] at h2
  exact absurd h2 (by decide)

theorem addMsg_ne_budget (f : String) (n : Int) :
    addMsg f n ≠ "Diff changes too many lines." := by
  intro h
  have h2 := addMsg_take2 f n
  rw [h] at h2
  exact absurd h2 (by decide)

theorem walkLimits_error_mem (ranges : List (String × Int × Int)) (api : Bool) :
    ∀ (ls : List String) (cf : Option String) (oldL newL : Option Int)
      (rem add : List String) (e : String),
      walkLimits ranges api ls cf oldL newL rem add = .error e →
      e = "Hunk appears before diff header." ∨ e = "Malformed hunk header in diff." ∨
      e = "Deletion encountered before hunk header." ∨
      e = "Addition encountered before hunk header." ∨
      e = sigChangeMsg ∨ (∃ f o, e = delMsg f o) ∨ (∃ f n, e = addMsg f n) := by
  intro ls
  induction ls with
  | nil =>
    intro cf oldL newL rem add e h
    simp [walkLimits] at h
  | cons line rest ih =>
    intro cf oldL newL rem add e h
    simp only [walkLimits] at h
    repeat' split at h
    all_goals
      first
        | exact ih _ _ _ _ _ _ h
        | exact Or.inl (Except.error.inj h).symm
        | exact Or.inr (Or.inl (Except.error.inj h).symm)
        | exact Or.inr (Or.inr (Or.inl (Except.error.inj h).symm))
        | exact Or.inr (Or.inr (Or.inr (Or.inl (Except.error.inj h).symm)))
        | exact Or.inr (Or.inr (Or.inr (Or.inr (Or.inl (Except.error.inj h).symm))))
        | exact Or.inr (Or.inr (Or.inr (Or.inr (Or.inr (Or.inl
            ⟨_, _, (Except.error.inj h).symm⟩)))))
        | exact Or.inr (Or.inr (Or.inr (Or.inr (Or.inr (Or.inr
            ⟨_, _, (Except.error.inj h).symm⟩)))))

theorem walkLimits_ne_budget (ranges : List (String × Int × Int)) (api : Bool)
    (ls : List String) (cf : Option String) (oldL newL : Option Int)
    (rem add : List String) :
    walkLimits ranges api ls cf oldL newL rem add ≠ .error "Diff changes too many lines." := by
  intro h
  rcases walkLimits_error_mem ranges api ls cf oldL newL rem add _ h with
    h1 | h1 | h1 | h1 | h1 | ⟨f, o, h1⟩ | ⟨f, n, h1⟩
  · exact absurd h1 (by decide)
  · exact absurd h1 (by decide)
  · exact absurd h1 (by decide)
  · exact absurd h1 (by decide)
  · exact absurd h1 (by simp [sigChangeMsg])
  · exact delMsg_ne_budget f o h1.symm
  · exact addMsg_ne_budget f n h1.symm

theorem checkDefLines_error (ls : List String) (e : String)
    (h : checkDefLines ls = .error e) :
    e = "Suspicious double-colon in definition header." := by
  induction ls with
  | nil => simp [checkDefLines] at h
  | cons l rest ih =>
    rw [checkDefLines] at h
    split at h
    · exact (Except.error.inj h).symm
    · exact ih h

theorem requireUnifiedDiff_error (diff : String) (e : String)
    (h : requireUnifiedDiff diff = .error e) :
    e = "Diff must start with 'diff --git'." ∨ e = "Diff must contain a hunk header '@@'." ∨
    e = "Suspicious double-colon in definition header." := by
  rw [requireUnifiedDiff] at h
  split at h
  · exact Or.inl (Except.error.inj h).symm
  · split at h
    · exact Or.inr (Or.inl (Except.error.inj h).symm)
    · exact Or.inr (Or.inr (checkDefLines_error _ _ h))

theorem ite_ok_tail {c : Prop} [Decidable c] {m : String} {x : Except String Unit}
    (h : (if c then Except.error m else x) = .ok ()) : x = .ok () := by
  split at h
  · simp at h
  · exact h

theorem ite_error_tail {c : Prop} [Decidable c] {m e : String} {x : Except String Unit}
    (h : (if c then Except.error m else x) = .error e) : e = m ∨ x = .error e := by
  split at h
  · exact Or.inl (Except.error.inj h).symm
  · exact Or.inr h

theorem ensureWithinLimits_ok_walk (diff : String) (af : List String) (ml mf : Int)
    (ts : List AstSpan) (pad : Int) (api : Bool)
    (h : ensureWithinLimits diff af ml mf ts pad api = .ok ()) :
    walkLimits (spanMap ts pad) api (splitLinesS diff) none none none [] [] = .ok () := by
  rw [ensureWithinLimits] at h
  split at h
  · simp at h
  · exact ite_ok_tail (ite_ok_tail (ite_ok_tail (ite_ok_tail (ite_ok_tail h))))

theorem ensureWithinLimits_error_cases (diff : String) (af : List String) (ml mf : Int)
    (ts : List AstSpan) (pad : Int) (api : Bool) (e : String)
    (h : ensureWithinLimits diff af ml mf ts pad api = .error e) :
    (e = "Diff must start with 'diff --git'." ∨ e = "Diff must contain a hunk header '@@'." ∨
     e = "Suspicious double-colon in definition header." ∨
     e = "Diff must touch at least one file header." ∨ e = "Diff touches too many files." ∨
     e = "Diff touches files outside of allowed set." ∨ e = "Diff changes too many lines." ∨
     e = "Diff does not touch any target span files.") ∨
    walkLimits (spanMap ts pad) api (splitLinesS diff) none none none [] [] = .error e := by
  rw [ensureWithinLimits] at h
  split at h
  · next e1 heq =>
    have he : e1 = e := Except.error.inj h
    subst he
    rcases requireUnifiedDiff_error diff e1 heq with h1 | h1 | h1
    · exact Or.inl (Or.inl h1)
    · exact Or.inl (Or.inr (Or.inl h1))
    · exact Or.inl (Or.inr (Or.inr (Or.inl h1)))
  · rcases ite_error_tail h with h1 | h
    · exact Or.inl (Or.inr (Or.inr (Or.inr (Or.inl h1))))
    rcases ite_error_tail h with h1 | h
    · exact Or.inl (Or.inr (Or.inr (Or.inr (Or.inr (Or.inl h1)))))
    rcases ite_error_tail h with h1 | h
    · exact Or.inl (Or.inr (Or.inr (Or.inr (Or.inr (Or.inr (Or.inl h1))))))
    rcases ite_error_tail h with h1 | h
    · exact Or.inl (Or.inr (Or.inr (Or.inr (Or.inr (Or.inr (Or.inr (Or.inl h1)))))))
    rcases ite_error_tail h with h1 | h
    · exact Or.inl (Or.inr (Or.inr (Or.inr (Or.inr (Or.inr (Or.inr (Or.inr h1)))))))
    exact Or.inr h

theorem containsStr_iff (l : List String) (a : String) : l.contains a = true ↔ a ∈ l := by
  rw [List.contains_eq_any_beq]
  simp

theorem ite_error_chain {c : Prop} [inst : Decidable c] {m e : String} {x : Except String Unit}
    (h : (if c then Except.error m else x) = .error e) (hne : e ≠ m) : ¬c ∧ x = .error e := by
  split at h
  · exact absurd (Except.error.inj h).symm hne
  · next hc => exact ⟨hc, h⟩

/-! ## Claim C6: the line budget -/

/-- Claim C6, amended: `ensure_within_limits` raises the line-budget error
exactly when the diff passes the earlier checks (unified-diff shape,
non-empty touched-file set of size at most `max_files`, inside the
allow-list) and `_count_changed_loc` — which counts every line beginning
`+` or `-`, including `--- `/`+++ ` file header lines — exceeds `max_loc`. -/
theorem claim_C6_line_budget (diff : String) (af : List String) (ml mf : Int)
    (ts : List AstSpan) (pad : Int) (api : Bool) :
    ensureWithinLimits diff af ml mf ts pad api = .error "Diff changes too many lines." ↔
      (requireUnifiedDiff diff = .ok () ∧ touchedFiles diff ≠ [] ∧
       ((touchedFiles diff).length : Int) ≤ mf ∧
       (∀ f ∈ touchedFiles diff, f ∈ af) ∧ ml < countChangedLoc diff) := by
  constructor
  · intro h
    rw [ensureWithinLimits] at h
    split at h
    · next e1 heq =>
      have he : e1 = "Diff changes too many lines." := Except.error.inj h
      rcases requireUnifiedDiff_error diff e1 heq with h1 | h1 | h1 <;>
        (rw [he] at h1; exact absurd h1 (by decide))
    · next heq =>
      obtain ⟨h1, h⟩ := ite_error_chain h (by decide)
      obtain ⟨h2, h⟩ := ite_error_chain h (by decide)
      obtain ⟨h3, h⟩ := ite_error_chain h (by decide)
      split at h
      · next hc =>
        refine ⟨heq, ?_, by omega, ?_, hc⟩
        · intro hnil
          exact h1 (by simp [hnil])
        · intro f hf
          have hall := not_not.mp h3
          rw [List.all_eq_true] at hall
          exact (containsStr_iff af f).mp (hall f hf)
      · obtain ⟨h4, h⟩ := ite_error_chain h (by decide)
        exact absurd h (walkLimits_ne_budget _ _ _ _ _ _ _ _)
  · rintro ⟨h1, h2, h3, h4, h5⟩
    rw [ensureWithinLimits, h1]
    rw [if_neg (by simp [h2]), if_neg (by omega), if_neg (by
      simp only [not_not, List.all_eq_true]
      intro f hf
      exact (containsStr_iff af f).mpr (h4 f hf)), if_pos h5]

/-- Claim C6 counterexample: a diff with `--- `/`+++ ` file header lines and
two changed body lines is rejected for the line budget at `max_loc = 3`, even
though only 2 body lines change: `_count_changed_loc` counts the header
lines too. -/
theorem claim_C6_counterexample :
    ensureWithinLimits d6 ["mod.py"] 3 2 [spanM] 0 false =
        .error "Diff changes too many lines." ∧
      bodyChangedLoc d6 = 2 ∧ countChangedLoc d6 = 4 ∧ ¬ (3 : Int) < bodyChangedLoc d6 := by
  refine ⟨rfl, rfl, rfl, by decide⟩

/-! ## Claim C3: bounded edit scope -/

theorem walkLimits_ok_specScan (ranges cranges : List (String × Int × Int)) (api : Bool)
    (hmono : ∀ f x, lineAllowed ranges f x = true → lineAllowed cranges f x = true) :
    ∀ (ls : List String) (cf : Option String) (oldL newL : Option Int) (rem add : List String),
      walkLimits ranges api ls cf oldL newL rem add = .ok () →
      specScan cranges ls cf oldL newL = false := by
  intro ls
  induction ls with
  | nil => intro cf oldL newL rem add _; rfl
  | cons line rest ih =>
    intro cf oldL newL rem add h
    simp only [walkLimits] at h
    simp only [specScan]
    cases hph : parseDiffHeader line with
    | some pr =>
      obtain ⟨a, b⟩ := pr
      rw [hph] at h
      simp only [hph]
      exact ih _ _ _ _ _ h
    | none =>
      rw [hph] at h
      simp only [hph]
      by_cases hAt : pyStartsWith line "@@" = true
      · cases cf with
        | none => simp [hAt] at h
        | some f =>
          cases hpk : parseHunkHeader line with
          | none => simp [hAt, hpk] at h
          | some pr =>
            obtain ⟨o, n⟩ := pr
            simp [hAt, hpk] at h ⊢
            exact ih _ _ _ _ _ h
      · by_cases hskip : (line == "" || cf.isNone) = true
        · simp [hAt, hskip] at h ⊢
          exact ih _ _ _ _ _ h
        · by_cases hsp : pyStartsWith line " " = true
          · simp [hAt, hskip, hsp] at h ⊢
            exact ih _ _ _ _ _ h
          · by_cases hmin : pyStartsWith line "-" = true
            · cases oldL with
              | none => simp [hAt, hskip, hsp, hmin] at h
              | some o =>
                by_cases hallow : lineAllowed ranges (cf.getD "") o = true
                · have hc := hmono _ _ hallow
                  simp [hAt, hskip, hsp, hmin, hallow, hc] at h ⊢
                  exact ih _ _ _ _ _ h
                · simp [hAt, hskip, hsp, hmin, hallow] at h
            · by_cases hplus : pyStartsWith line "+" = true
              · cases newL with
                | none => simp [hAt, hskip, hsp, hmin, hplus] at h
                | some n =>
                  by_cases hallow : lineAllowed ranges (cf.getD "") n = true
                  · have hc := hmono _ _ hallow
                    simp [hAt, hskip, hsp, hmin, hplus, hallow, hc] at h ⊢
                    split at h
                    · simp at h
                    · exact ih _ _ _ _ _ h
                  · simp [hAt, hskip, hsp, hmin, hplus, hallow] at h
              · simp [hAt, hskip, hsp, hmin, hplus] at h ⊢
                exact ih _ _ _ _ _ h

theorem spanMap_le_claim (ts : List AstSpan) (pad : Int)
    (hval : ∀ s ∈ ts, 1 ≤ s.startLine ∧ s.startLine ≤ s.endLine) (hpad : 0 ≤ pad) :
    ∀ f x, lineAllowed (spanMap ts pad) f x = true →
      lineAllowed (claimPadRanges ts pad) f x = true := by
  intro f x h
  rw [lineAllowed, List.any_eq_true] at h ⊢
  obtain ⟨r, hr, hcond⟩ := h
  rw [spanMap, List.mem_map] at hr
  obtain ⟨s, hs, rfl⟩ := hr
  refine ⟨(s.file, s.startLine - pad, s.endLine + pad), ?_, ?_⟩
  · rw [claimPadRanges, List.mem_map]
    exact ⟨s, hs, rfl⟩
  · obtain ⟨h1, h2⟩ := hval s hs
    simp only [Bool.and_eq_true, beq_iff_eq, decide_eq_true_eq] at hcond ⊢
    obtain ⟨⟨hf, ha⟩, hb⟩ := hcond
    refine ⟨⟨hf, ?_⟩, ?_⟩ <;> omega

/-- Claim C3 (amended): whenever the claim-side scan — which follows the
spec's cursor rules over the padded target spans, flags any `+`/`-` body
line whose cursor falls outside the spans of its file, and flags any such
line between a recognized file header and its first hunk header — finds a
violation, `ensure_within_limits` raises a `ValidationError` (lines before
the first recognized `diff --git a/… b/…` header carry no current file and
are exempt, and spans are assumed to satisfy the data-model invariant
`1 ≤ start_line ≤ end_line` with non-negative padding). -/
theorem claim_C3_bounded_scope (diff : String) (af : List String) (ml mf : Int)
    (ts : List AstSpan) (pad : Int) (api : Bool)
    (hval : ∀ s ∈ ts, 1 ≤ s.startLine ∧ s.startLine ≤ s.endLine) (hpad : 0 ≤ pad)
    (hviol : specScan (claimPadRanges ts pad) (splitLinesS diff) none none none = true) :
    ∃ e, ensureWithinLimits diff af ml mf ts pad api = .error e := by
  cases hres : ensureWithinLimits diff af ml mf ts pad api with
  | ok u =>
    cases u
    have hwalk := ensureWithinLimits_ok_walk diff af ml mf ts pad api hres
    have hfalse := walkLimits_ok_specScan (spanMap ts pad) (claimPadRanges ts pad) api
      (spanMap_le_claim ts pad hval hpad) (splitLinesS diff) none none none [] [] hwalk
    rw [hfalse] at hviol
    exact absurd hviol (by simp)
  | error e => exact ⟨e, rfl⟩

/-- Witness for claim C3: a deletion stated at `mod.py:7` against the span
`mod.py:1-2` with no padding is flagged by the claim-side scan, and
`ensure_within_limits` indeed errors. -/
theorem claim_C3_bounded_scope_witness :
    ∃ e, ensureWithinLimits d3w ["mod.py"] 12 2 [spanM] 0 false = .error e :=
  claim_C3_bounded_scope d3w ["mod.py"] 12 2 [spanM] 0 false
    (by intro s hs; simp only [List.mem_singleton] at hs; subst hs
        exact ⟨by decide, by decide⟩)
    (by decide) (by decide)

/-- Counterexample for claim C3 as stated: in `d3` the line `-rogue` is a
`-` body line occurring before any hunk header, yet `ensure_within_limits`
accepts the diff — the line precedes the first recognized `diff --git`
header, so the walk skips it silently (`current_file is None`). -/
theorem claim_C3_counterexample :
    ensureWithinLimits d3 ["mod.py"] 12 2 [spanM] 0 false = .ok () ∧
      changeBeforeFirstHunk (splitLinesS d3) = true :=
  ⟨rfl, rfl⟩

/-! ## Claim C4: the signature guard -/

theorem walkLimits_sig_trigger (ranges : List (String × Int × Int)) :
    ∀ (ls : List String) (cf : Option String) (oldL newL : Option Int) (rem add : List String),
      walkLimits ranges false ls cf oldL newL rem add = .error sigChangeMsg →
      sigTrigger ls cf.isSome rem add = true := by
  intro ls
  induction ls with
  | nil => intro cf oldL newL rem add h; simp [walkLimits] at h
  | cons line rest ih =>
    intro cf oldL newL rem add h
    simp only [walkLimits] at h
    simp only [sigTrigger]
    cases hph : parseDiffHeader line with
    | some pr =>
      obtain ⟨a, b⟩ := pr
      rw [hph] at h
      simp only [hph]
      exact ih (some b) _ _ _ _ h
    | none =>
      rw [hph] at h
      simp only [hph]
      by_cases hAt : pyStartsWith line "@@" = true
      · cases cf with
        | none => simp [hAt, sigChangeMsg] at h
        | some f =>
          cases hpk : parseHunkHeader line with
          | none => simp [hAt, hpk, sigChangeMsg] at h
          | some pr =>
            obtain ⟨o, n⟩ := pr
            simp [hAt, hpk] at h ⊢
            exact ih (some f) _ _ _ _ h
      · cases cf with
        | none =>
          simp [hAt] at h ⊢
          exact ih none _ _ _ _ h
        | some f =>
          by_cases hemp : (line == "") = true
          · simp [hAt, hemp] at h ⊢
            exact ih (some f) _ _ _ _ h
          · by_cases hsp : pyStartsWith line " " = true
            · simp [hAt, hemp, hsp] at h ⊢
              exact ih (some f) _ _ _ _ h
            · by_cases hmin : pyStartsWith line "-" = true
              · cases oldL with
                | none => simp [hAt, hemp, hsp, hmin, sigChangeMsg] at h
                | some o =>
                  simp [hAt, hemp, hsp, hmin, trackDef] at h ⊢
                  split at h
                  · exact absurd (Except.error.inj h) (delMsg_ne_sig f o)
                  · exact ih (some f) _ _ _ _ h
              · by_cases hplus : pyStartsWith line "+" = true
                · cases newL with
                  | none => simp [hAt, hemp, hsp, hmin, hplus, sigChangeMsg] at h
                  | some n =>
                    simp [hAt, hemp, hsp, hmin, hplus, trackDef] at h ⊢
                    split at h
                    · exact absurd (Except.error.inj h) (addMsg_ne_sig f n)
                    · split at h
                      · next hcond =>
                        simp only [if_pos hcond]
                        split at h
                        · next hc2 => exact Or.inl hc2
                        · exact Or.inr (ih (some f) _ _ _ _ h)
                      · next hcond =>
                        simp only [if_neg hcond]
                        split at h
                        · next hc2 => exact Or.inl hc2
                        · exact Or.inr (ih (some f) _ _ _ _ h)
                · simp [hAt, hemp, hsp, hmin, hplus] at h ⊢
                  exact ih (some f) _ _ _ _ h

theorem walkLimits_ok_sigTrigger (ranges : List (String × Int × Int)) :
    ∀ (ls : List String) (cf : Option String) (oldL newL : Option Int) (rem add : List String),
      walkLimits ranges false ls cf oldL newL rem add = .ok () →
      sigTrigger ls cf.isSome rem add = false := by
  intro ls
  induction ls with
  | nil => intro cf oldL newL rem add _; rfl
  | cons line rest ih =>
    intro cf oldL newL rem add h
    simp only [walkLimits] at h
    simp only [sigTrigger]
    cases hph : parseDiffHeader line with
    | some pr =>
      obtain ⟨a, b⟩ := pr
      rw [hph] at h
      simp only [hph]
      exact ih (some b) _ _ _ _ h
    | none =>
      rw [hph] at h
      simp only [hph]
      by_cases hAt : pyStartsWith line "@@" = true
      · cases cf with
        | none => simp [hAt] at h
        | some f =>
          cases hpk : parseHunkHeader line with
          | none => simp [hAt, hpk] at h
          | some pr =>
            obtain ⟨o, n⟩ := pr
            simp [hAt, hpk] at h ⊢
            exact ih (some f) _ _ _ _ h
      · cases cf with
        | none =>
          simp [hAt] at h ⊢
          exact ih none _ _ _ _ h
        | some f =>
          by_cases hemp : (line == "") = true
          · simp [hAt, hemp] at h ⊢
            exact ih (some f) _ _ _ _ h
          · by_cases hsp : pyStartsWith line " " = true
            · simp [hAt, hemp, hsp] at h ⊢
              exact ih (some f) _ _ _ _ h
            · by_cases hmin : pyStartsWith line "-" = true
              · cases oldL with
                | none => simp [hAt, hemp, hsp, hmin] at h
                | some o =>
                  simp [hAt, hemp, hsp, hmin, trackDef] at h ⊢
                  split at h
                  · simp at h
                  · exact ih (some f) _ _ _ _ h
              · by_cases hplus : pyStartsWith line "+" = true
                · cases newL with
                  | none => simp [hAt, hemp, hsp, hmin, hplus] at h
                  | some n =>
                    simp [hAt, hemp, hsp, hmin, hplus, trackDef] at h ⊢
                    split at h
                    · simp at h
                    · split at h
                      · next hcond =>
                        simp only [if_pos hcond]
                        split at h
                        · simp at h
                        · next hc2 =>
                          refine ⟨fun h1 h2 => ?_, ih (some f) _ _ _ _ h⟩
                          have h3 := fun hc => hc2 ⟨⟨h1, h2⟩, hc⟩
                          simpa using h3
                      · next hcond =>
                        simp only [if_neg hcond]
                        split at h
                        · simp at h
                        · next hc2 =>
                          refine ⟨fun h1 h2 => ?_, ih (some f) _ _ _ _ h⟩
                          have h3 := fun hc => hc2 ⟨⟨h1, h2⟩, hc⟩
                          simpa using h3
                · simp [hAt, hemp, hsp, hmin, hplus] at h ⊢
                  exact ih (some f) _ _ _ _ h

/-- Claim C4 (amended): with `allow_api_change` false, `ensure_within_limits`
raises the signature-change error only when the incremental trigger fires —
at some added line the sets of removed and added `def` lines accumulated so
far in the current hunk are both non-empty and unequal — and conversely
whenever the trigger fires the diff is rejected with some `ValidationError`
(the signature error or an earlier failure).  The per-hunk final sets of the
original claim do not govern rejection (see the counterexample). -/
theorem claim_C4_signature_guard (diff : String) (af : List String) (ml mf : Int)
    (ts : List AstSpan) (pad : Int) :
    (ensureWithinLimits diff af ml mf ts pad false = .error sigChangeMsg →
      sigTrigger (splitLinesS diff) false [] [] = true) ∧
    (sigTrigger (splitLinesS diff) false [] [] = true →
      ∃ e, ensureWithinLimits diff af ml mf ts pad false = .error e) := by
  constructor
  · intro h
    rcases ensureWithinLimits_error_cases diff af ml mf ts pad false _ h with hmem | hwalk
    · rcases hmem with h1 | h1 | h1 | h1 | h1 | h1 | h1 | h1 <;> exact absurd h1 (by decide)
    · exact walkLimits_sig_trigger (spanMap ts pad) (splitLinesS diff) none none none [] [] hwalk
  · intro h
    cases hres : ensureWithinLimits diff af ml mf ts pad false with
    | ok u =>
      cases u
      have hwalk := ensureWithinLimits_ok_walk diff af ml mf ts pad false hres
      have hfalse :=
        walkLimits_ok_sigTrigger (spanMap ts pad) (splitLinesS diff) none none none [] [] hwalk
      rw [show ((none : Option String).isSome) = false from rfl] at hfalse
      rw [hfalse] at h
      exact absurd h (by simp)
    | error e => exact ⟨e, rfl⟩

/-- Witness for claim C4: the reordered-defs diff `d4` fires the incremental
trigger, and `ensure_within_limits` indeed rejects it. -/
theorem claim_C4_signature_guard_witness :
    ∃ e, ensureWithinLimits d4 ["mod.py"] 12 2 [spanM4] 0 false = .error e :=
  (claim_C4_signature_guard d4 ["mod.py"] 12 2 [spanM4] 0).2 (by decide)

/-- Counterexample for claim C4 as stated: in the single hunk of `d4` the
final set of removed `def` lines equals the final set of added `def` lines,
yet `ensure_within_limits` raises the signature-change error — the check is
incremental (after the first `+def f():` the accumulated sets are `{f}` and
`{f, g}`), not a comparison of the hunk's final sets. -/
theorem claim_C4_counterexample :
    ensureWithinLimits d4 ["mod.py"] 12 2 [spanM4] 0 false = .error sigChangeMsg ∧
      hunkDefSetsBalanced (splitLinesS d4) [] [] = true :=
  ⟨rfl, rfl⟩

/-- Claim C7 (amended): the fallback applier consumes a file section's hunk
lines with a single cursor starting at the top of the file that is never
re-seeded — hunk header lines are skipped, a context line copies the current
original line and advances, a `-` line consumes without copying, a `+` line
inserts its newline-terminated payload, and the unconsumed remainder is
appended (the `specFallbackApply` description); it agrees with correct
unified-diff application at the header's stated position exactly for a
section whose single hunk is anchored at old line 1. -/
theorem claim_C7_manual_apply :
    (∀ original hunkLines,
      applyHunksLines original hunkLines = specFallbackApply original hunkLines) ∧
    (∀ (original : List String) (hdr : String) (body : List String) (n : Int),
      parseHunkHeader hdr = some (1, n) → (∀ l ∈ body, parseHunkHeader l = none) →
      applyHunksLines original (hdr :: body) = specApplyCorrect original (hdr :: body)) := by
  constructor
  · intro original hunkLines
    have h := applyHunksGo_foldl original hunkLines 0 []
    simpa [applyHunksLines, specFallbackApply] using h
  · intro original hdr body n hhdr hbody
    have hAt : pyStartsWith hdr "@@" = true := parseHunkHeader_startsAt hhdr
    rw [applyHunksLines, specApplyCorrect]
    simp only [applyHunksGo, specApplyReseed, hAt, if_true, hhdr]
    norm_num
    exact applyHunksGo_eq_reseed original body 0 hbody

/-- Witness for claim C7: on a section whose hunk is anchored at old line 1
the fallback and correct application agree. -/
theorem claim_C7_manual_apply_witness :
    applyHunksLines ["a\n", "b\n"] ["@@ -1,1 +1,1 @@", "-a", "+b"] =
      specApplyCorrect ["a\n", "b\n"] ["@@ -1,1 +1,1 @@", "-a", "+b"] :=
  claim_C7_manual_apply.2 ["a\n", "b\n"] "@@ -1,1 +1,1 @@" ["-a", "+b"] 1
    (by decide) (by decide)

/-- Counterexample for claim C7 as stated: for a hunk stated at old line 3,
`_apply_hunks` does not re-seed its cursor from the header (it skips `@@`
lines), so it edits the top of the file instead of line 3; correct
application at the stated position yields a different file. -/
theorem claim_C7_counterexample :
    applyHunksLines origC7 hunkC7 = ["C\n", "b\n", "c\n"] ∧
      specApplyCorrect origC7 hunkC7 = ["a\n", "b\n", "C\n"] ∧
      applyHunksLines origC7 hunkC7 ≠ specApplyCorrect origC7 hunkC7 :=
  ⟨rfl, rfl, by decide⟩

/-- Counterexample for claim C8 as stated: with targeted tests enabled and
the non-empty failing-test list `[""]`, `_derive_test_cmd` returns
`ctx.test_cmd` unchanged — not a `pytest -q -k "…"` command — because the
empty node id contributes no name. -/
theorem claim_C8_counterexample :
    cfgD.gates.targetedTests = true ∧ ctxC8.failingTests ≠ [] ∧
      deriveTestCmd ctxC8 cfgD = "pytest -q" ∧
      pyStartsWith (deriveTestCmd ctxC8 cfgD) "pytest -q -k " = false :=
  ⟨rfl, by decide, rfl, by decide⟩

/-! ## Claims C1, C2, C10: the transactional executor -/

theorem gitCommit_spec {r : Repo} {msg : String} {r2 : Repo}
    (h : gitCommit r msg = some r2) :
    r2.commits = ⟨msg, r.worktree⟩ :: r.commits := by
  rw [gitCommit] at h
  split at h
  · simp at h
  · rw [← Option.some.inj h]

theorem attemptFinish_spec {cfg : Config} {step : PlanStep} {head : List GitCommit}
    {muPre : Nat} {repo1 : Repo} {muPost : Nat} {evs : List TnrEv}
    {r' : Repo} {a : AttemptRes} {evs' : List TnrEv} {lgs : List String}
    (hc : repo1.commits = head)
    (h : attemptFinish cfg step head muPre repo1 muPost evs = .ok (r', a, evs', lgs)) :
    (a = .notCommitted → r'.commits = head) ∧
    (∀ mp, a = .committed mp →
      (cfg.tnr.requireMuNonworsening = true → mp ≤ muPre) ∧
      ∃ t, r'.commits = ⟨commitMsg step, t⟩ :: head) := by
  rw [attemptFinish] at h
  split at h
  · simp only [Except.ok.injEq, Prod.mk.injEq] at h
    obtain ⟨hr, ha, -, -⟩ := h
    constructor
    · intro _; rw [← hr]; rfl
    · intro mp hmp; rw [← ha] at hmp; cases hmp
  · next hcond =>
    cases hgc : gitCommit repo1 (commitMsg step) with
    | none => rw [hgc] at h; simp at h
    | some r2 =>
      rw [hgc] at h
      simp only [Except.ok.injEq, Prod.mk.injEq] at h
      obtain ⟨hr, ha, -, -⟩ := h
      constructor
      · intro hnc; rw [← ha] at hnc; cases hnc
      · intro mp hmp
        rw [← ha] at hmp
        cases hmp
        constructor
        · intro hreq
          by_contra hgt
          exact hcond ⟨hreq, by omega⟩
        · refine ⟨repo1.worktree, ?_⟩
          rw [← hr, gitCommit_spec hgc, hc]

theorem attemptGates_spec {env : Env} {cfg : Config} {ctx : TaskContext} {step : PlanStep}
    {head : List GitCommit} {muPre : Nat} {repo1 : Repo} {muCand : Option Nat}
    {evs : List TnrEv} {r' : Repo} {a : AttemptRes} {evs' : List TnrEv} {lgs : List String}
    (hc : repo1.commits = head)
    (h : attemptGates env cfg ctx step head muPre repo1 muCand evs = .ok (r', a, evs', lgs)) :
    (a = .notCommitted → r'.commits = head) ∧
    (∀ mp, a = .committed mp →
      (cfg.tnr.requireMuNonworsening = true → mp ≤ muPre) ∧
      ∃ t, r'.commits = ⟨commitMsg step, t⟩ :: head) := by
  rw [attemptGates] at h
  split at h
  · split at h
    · split at h
      · simp only [Except.ok.injEq, Prod.mk.injEq] at h
        obtain ⟨hr, ha, -, -⟩ := h
        constructor
        · intro _; rw [← hr]; rfl
        · intro mp hmp; rw [← ha] at hmp; cases hmp
      · exact attemptFinish_spec hc h
  · exact attemptFinish_spec hc h

theorem attemptStatic_spec {env : Env} {cfg : Config} {ctx : TaskContext} {step : PlanStep}
    {head : List GitCommit} {muPre : Nat} {repo1 : Repo} {muCand : Option Nat}
    {evs : List TnrEv} {r' : Repo} {a : AttemptRes} {evs' : List TnrEv} {lgs : List String}
    (hc : repo1.commits = head)
    (h : attemptStatic env cfg ctx step head muPre repo1 muCand evs = .ok (r', a, evs', lgs)) :
    (a = .notCommitted → r'.commits = head) ∧
    (∀ mp, a = .committed mp →
      (cfg.tnr.requireMuNonworsening = true → mp ≤ muPre) ∧
      ∃ t, r'.commits = ⟨commitMsg step, t⟩ :: head) := by
  rw [attemptStatic] at h
  split at h
  · split at h
    · split at h
      · simp only [Except.ok.injEq, Prod.mk.injEq] at h
        obtain ⟨hr, ha, -, -⟩ := h
        constructor
        · intro _; rw [← hr]; rfl
        · intro mp hmp; rw [← ha] at hmp; cases hmp
      · exact attemptGates_spec hc h
  · exact attemptGates_spec hc h

theorem attemptOne_spec {env : Env} {cfg : Config} {ctx : TaskContext} {step : PlanStep}
    {head : List GitCommit} {muPre : Nat} {repo : Repo} {p : DiffProposal}
    {r' : Repo} {a : AttemptRes} {evs : List TnrEv} {lgs : List String}
    (hc : repo.commits = head)
    (h : attemptOne env cfg ctx step head muPre repo p = .ok (r', a, evs, lgs)) :
    (a = .notCommitted → r'.commits = head) ∧
    (∀ mp, a = .committed mp →
      (cfg.tnr.requireMuNonworsening = true → mp ≤ muPre) ∧
      ∃ t, r'.commits = ⟨commitMsg step, t⟩ :: head) := by
  rw [attemptOne] at h
  split at h
  · simp only [Except.ok.injEq, Prod.mk.injEq] at h
    obtain ⟨hr, ha, -, -⟩ := h
    constructor
    · intro _; rw [← hr, ← hc]
    · intro mp hmp; rw [← ha] at hmp; cases hmp
  · split at h
    · simp at h
    · simp only [Except.ok.injEq, Prod.mk.injEq] at h
      obtain ⟨hr, ha, -, -⟩ := h
      constructor
      · intro _; rw [← hr]; rfl
      · intro mp hmp; rw [← ha] at hmp; cases hmp
    · next t happly =>
      dsimp only [] at h
      split at h
      · split at h
        · simp only [Except.ok.injEq, Prod.mk.injEq] at h
          obtain ⟨hr, ha, -, -⟩ := h
          constructor
          · intro _; rw [← hr]; rfl
          · intro mp hmp; rw [← ha] at hmp; cases hmp
        · exact attemptStatic_spec
            (show ({ commits := repo.commits, worktree := t } : Repo).commits = head from hc) h
      · exact attemptStatic_spec
          (show ({ commits := repo.commits, worktree := t } : Repo).commits = head from hc) h

theorem txnLoop_spec (env : Env) (cfg : Config) (ctx : TaskContext) (step : PlanStep)
    (head : List GitCommit) (muPre : Nat) :
    ∀ (ps : List DiffProposal) (attempt : Int) (repo : Repo) (logs : List String)
      (evs : List TnrEv) (r' : Repo) (res : TransactionResult) (tr : List TnrEv),
      repo.commits = head →
      txnLoop env cfg ctx step head muPre ps attempt repo logs evs = .ok (r', res, tr) →
      res.muPre = muPre ∧
      (res.committed = false →
        r' = revertTo head ∧ res.appliedDiff = none ∧ res.muPost = muPre) ∧
      (res.committed = true →
        (cfg.tnr.requireMuNonworsening = true → res.muPost ≤ muPre) ∧
        ∃ t, r'.commits = ⟨commitMsg step, t⟩ :: head) := by
  intro ps
  induction ps with
  | nil =>
    intro attempt repo logs evs r' res tr hc h
    simp only [txnLoop] at h
    simp only [Except.ok.injEq, Prod.mk.injEq] at h
    obtain ⟨hr, hres, -⟩ := h
    rw [← hres]
    refine ⟨rfl, fun _ => ⟨hr.symm, rfl, rfl⟩, fun hcom => ?_⟩
    exact absurd hcom (by simp)
  | cons p ps ih =>
    intro attempt repo logs evs r' res tr hc h
    simp only [txnLoop] at h
    split at h
    · simp only [Except.ok.injEq, Prod.mk.injEq] at h
      obtain ⟨hr, hres, -⟩ := h
      rw [← hres]
      refine ⟨rfl, fun _ => ⟨hr.symm, rfl, rfl⟩, fun hcom => ?_⟩
      exact absurd hcom (by simp)
    · split at h
      · simp at h
      · next repo' muPost evs' logs' heq =>
        simp only [Except.ok.injEq, Prod.mk.injEq] at h
        obtain ⟨hr, hres, -⟩ := h
        rw [← hres]
        refine ⟨rfl, fun hcom => ?_, fun _ => ?_⟩
        · exact absurd hcom (by simp)
        · obtain ⟨hle, t, hco⟩ := (attemptOne_spec hc heq).2 muPost rfl
          exact ⟨hle, t, by rw [← hr]; exact hco⟩
      · next repo' evs' logs' heq =>
        have hc' : repo'.commits = head := (attemptOne_spec hc heq).1 rfl
        exact ih _ _ _ _ _ _ _ hc' h

/-- Claim C1 (amended): for every call of `txn_patch` that returns a
`TransactionResult`, if `committed = False` then the repository working tree
at return is byte-identical to the tree of the `HEAD` commit checkpointed at
entry (hence to the entry state whenever the entry working tree was clean),
the commit history being unchanged; and if `committed = True` then `HEAD`
has advanced by exactly one commit whose message is `txn:{step.id}`. -/
theorem claim_C1_atomicity (env : Env) (cfg : Config) (ctx : TaskContext) (step : PlanStep)
    (proposals : List DiffProposal) (repo : Repo) (r' : Repo) (res : TransactionResult)
    (tr : List TnrEv)
    (h : txnPatch env cfg ctx step proposals repo = .ok (r', res, tr)) :
    (res.committed = false → r'.worktree = headTree repo ∧ r'.commits = repo.commits) ∧
    (res.committed = true → ∃ t, r'.commits = ⟨commitMsg step, t⟩ :: repo.commits) := by
  rw [txnPatch] at h
  split at h
  · split at h
    have hs := txnLoop_spec env cfg ctx step (checkpoint repo) _ _ _ _ _ _ _ _ _ rfl h
    refine ⟨fun hcom => ?_, fun hcom => (hs.2.2 hcom).2⟩
    obtain ⟨hrev, -, -⟩ := hs.2.1 hcom
    rw [hrev]
    exact ⟨rfl, rfl⟩
  · have hs := txnLoop_spec env cfg ctx step (checkpoint repo) _ _ _ _ _ _ _ _ _ rfl h
    refine ⟨fun hcom => ?_, fun hcom => (hs.2.2 hcom).2⟩
    obtain ⟨hrev, -, -⟩ := hs.2.1 hcom
    rw [hrev]
    exact ⟨rfl, rfl⟩

/-- Claim C2: whenever `require_mu_nonworsening` is set, every `txn_patch`
call that returns `committed = True` reports `mu_post ≤ mu_pre`: both the
early µ check (targeted tests off) and the final µ check of line 106 guard
the commit. -/
theorem claim_C2_mu_monotonicity (env : Env) (cfg : Config) (ctx : TaskContext)
    (step : PlanStep) (proposals : List DiffProposal) (repo : Repo) (r' : Repo)
    (res : TransactionResult) (tr : List TnrEv)
    (h : txnPatch env cfg ctx step proposals repo = .ok (r', res, tr))
    (hreq : cfg.tnr.requireMuNonworsening = true) (hcom : res.committed = true) :
    res.muPost ≤ res.muPre := by
  rw [txnPatch] at h
  split at h
  · split at h
    have hs := txnLoop_spec env cfg ctx step (checkpoint repo) _ _ _ _ _ _ _ _ _ rfl h
    rw [hs.1]
    exact (hs.2.2 hcom).1 hreq
  · have hs := txnLoop_spec env cfg ctx step (checkpoint repo) _ _ _ _ _ _ _ _ _ rfl h
    rw [hs.1]
    exact (hs.2.2 hcom).1 hreq

/-- Claim C10: a `txn_patch` call that returns `committed = False` reports
no applied diff and `mu_post = mu_pre` — the single failure return at line
115 builds `TransactionResult(False, None, mu_pre, mu_pre, …)`. -/
theorem claim_C10_failed_result (env : Env) (cfg : Config) (ctx : TaskContext)
    (step : PlanStep) (proposals : List DiffProposal) (repo : Repo) (r' : Repo)
    (res : TransactionResult) (tr : List TnrEv)
    (h : txnPatch env cfg ctx step proposals repo = .ok (r', res, tr))
    (hcom : res.committed = false) :
    res.appliedDiff = none ∧ res.muPost = res.muPre := by
  rw [txnPatch] at h
  split at h
  · split at h
    have hs := txnLoop_spec env cfg ctx step (checkpoint repo) _ _ _ _ _ _ _ _ _ rfl h
    obtain ⟨-, hnone, hpost⟩ := hs.2.1 hcom
    rw [hs.1]
    exact ⟨hnone, hpost⟩
  · have hs := txnLoop_spec env cfg ctx step (checkpoint repo) _ _ _ _ _ _ _ _ _ rfl h
    obtain ⟨-, hnone, hpost⟩ := hs.2.1 hcom
    rw [hs.1]
    exact ⟨hnone, hpost⟩

theorem claim_C1_atomicity_witness :
    (revertTo repoClean.commits).worktree = headTree repoClean ∧
    (revertTo repoClean.commits).commits = repoClean.commits :=
  (claim_C1_atomicity envA cfgNT ctxA stepA [] repoClean (revertTo repoClean.commits)
    ⟨false, none, 0, 0, []⟩ [TnrEv.measureMuPre 0, TnrEv.finalRevert] rfl).1 rfl

theorem claim_C1_counterexample :
    txnPatch envA cfgNT ctxA stepA [] repoDirty =
      .ok (revertTo repoDirty.commits, ⟨false, none, 0, 0, []⟩,
        [TnrEv.measureMuPre 0, TnrEv.finalRevert]) ∧
    (revertTo repoDirty.commits).worktree ≠ repoDirty.worktree :=
  ⟨rfl, by decide⟩

theorem claim_C2_mu_monotonicity_witness :
    (⟨true, some pOK, 0, 0, []⟩ : TransactionResult).muPost ≤
      (⟨true, some pOK, 0, 0, []⟩ : TransactionResult).muPre :=
  claim_C2_mu_monotonicity envA cfgNT ctxA stepA [pOK] repoClean
    ⟨⟨commitMsg stepA, [("m", "b\n")]⟩ :: repoClean.commits, [("m", "b\n")]⟩
    ⟨true, some pOK, 0, 0, []⟩
    [TnrEv.measureMuPre 0, TnrEv.applyOk, TnrEv.measureMuCand 0, TnrEv.commitDone]
    rfl rfl rfl

theorem claim_C10_failed_result_witness :
    (⟨false, none, 0, 0, []⟩ : TransactionResult).appliedDiff = none ∧
    (⟨false, none, 0, 0, []⟩ : TransactionResult).muPost =
      (⟨false, none, 0, 0, []⟩ : TransactionResult).muPre :=
  claim_C10_failed_result envA cfgNT ctxA stepA [] repoDirty
    (revertTo repoDirty.commits) ⟨false, none, 0, 0, []⟩
    [TnrEv.measureMuPre 0, TnrEv.finalRevert] rfl rfl

theorem attemptFinish_evs {cfg : Config} {step : PlanStep} {head : List GitCommit}
    {muPre : Nat} {repo1 : Repo} {muPost : Nat} {evs : List TnrEv}
    {r' : Repo} {a : AttemptRes} {evs' : List TnrEv} {lgs : List String}
    (h : attemptFinish cfg step head muPre repo1 muPost evs = .ok (r', a, evs', lgs)) :
    evs' = evs ++ [TnrEv.muRevertLate] ∨ evs' = evs ++ [TnrEv.commitDone] := by
  rw [attemptFinish] at h
  split at h
  · simp only [Except.ok.injEq, Prod.mk.injEq] at h
    exact Or.inl h.2.2.1.symm
  · cases hgc : gitCommit repo1 (commitMsg step) with
    | none => rw [hgc] at h; simp at h
    | some r2 =>
      rw [hgc] at h
      simp only [Except.ok.injEq, Prod.mk.injEq] at h
      exact Or.inr h.2.2.1.symm

theorem attemptFinish_evs_zero {cfg : Config} {step : PlanStep} {head : List GitCommit}
    {muPre : Nat} {repo1 : Repo} {evs : List TnrEv}
    {r' : Repo} {a : AttemptRes} {evs' : List TnrEv} {lgs : List String}
    (h : attemptFinish cfg step head muPre repo1 0 evs = .ok (r', a, evs', lgs)) :
    evs' = evs ++ [TnrEv.commitDone] := by
  rw [attemptFinish] at h
  split at h
  · next hcond => exact absurd hcond.2 (by omega)
  · cases hgc : gitCommit repo1 (commitMsg step) with
    | none => rw [hgc] at h; simp at h
    | some r2 =>
      rw [hgc] at h
      simp only [Except.ok.injEq, Prod.mk.injEq] at h
      exact h.2.2.1.symm

theorem attemptGates_evs_T {env : Env} {cfg : Config} {ctx : TaskContext} {step : PlanStep}
    {head : List GitCommit} {muPre : Nat} {repo1 : Repo} {muCand : Option Nat}
    {evs : List TnrEv} {r' : Repo} {a : AttemptRes} {evs' : List TnrEv} {lgs : List String}
    (hT : cfg.gates.targetedTests = true)
    (h : attemptGates env cfg ctx step head muPre repo1 muCand evs = .ok (r', a, evs', lgs)) :
    evs' = evs ++ [TnrEv.targetedRun false] ∨
    evs' = evs ++ [TnrEv.targetedRun true, TnrEv.commitDone] := by
  rw [attemptGates] at h
  split at h
  · split at h
    · split at h
      · simp only [Except.ok.injEq, Prod.mk.injEq] at h
        exact Or.inl h.2.2.1.symm
      · have h2 := attemptFinish_evs_zero h
        exact Or.inr (by rw [h2, List.append_assoc]; rfl)
  · next hf => exact absurd hT hf

theorem attemptGates_evs_F {env : Env} {cfg : Config} {ctx : TaskContext} {step : PlanStep}
    {head : List GitCommit} {muPre : Nat} {repo1 : Repo} {muCand : Option Nat}
    {evs : List TnrEv} {r' : Repo} {a : AttemptRes} {evs' : List TnrEv} {lgs : List String}
    (hT : cfg.gates.targetedTests = false)
    (h : attemptGates env cfg ctx step head muPre repo1 muCand evs = .ok (r', a, evs', lgs)) :
    evs' = evs ++ [TnrEv.muRevertLate] ∨ evs' = evs ++ [TnrEv.commitDone] := by
  rw [attemptGates] at h
  split at h
  · next ht => exact absurd (hT.symm.trans ht) (by decide)
  · exact attemptFinish_evs h

theorem attemptStatic_evs_T {env : Env} {cfg : Config} {ctx : TaskContext} {step : PlanStep}
    {head : List GitCommit} {muPre : Nat} {repo1 : Repo} {muCand : Option Nat}
    {evs : List TnrEv} {r' : Repo} {a : AttemptRes} {evs' : List TnrEv} {lgs : List String}
    (hT : cfg.gates.targetedTests = true)
    (h : attemptStatic env cfg ctx step head muPre repo1 muCand evs = .ok (r', a, evs', lgs)) :
    (cfg.gates.static = true →
      evs' = evs ++ [TnrEv.staticRun false] ∨
      evs' = evs ++ [TnrEv.staticRun true, TnrEv.targetedRun false] ∨
      evs' = evs ++ [TnrEv.staticRun true, TnrEv.targetedRun true, TnrEv.commitDone]) ∧
    (cfg.gates.static = false →
      evs' = evs ++ [TnrEv.targetedRun false] ∨
      evs' = evs ++ [TnrEv.targetedRun true, TnrEv.commitDone]) := by
  rw [attemptStatic] at h
  split at h
  · next hs =>
    split at h
    · split at h
      · simp only [Except.ok.injEq, Prod.mk.injEq] at h
        exact ⟨fun _ => Or.inl h.2.2.1.symm,
          fun hf => absurd (hf.symm.trans hs) (by decide)⟩
      · have h2 := attemptGates_evs_T hT h
        refine ⟨fun _ => ?_, fun hf => absurd (hf.symm.trans hs) (by decide)⟩
        rcases h2 with h2 | h2
        · exact Or.inr (Or.inl (by rw [h2, List.append_assoc]; rfl))
        · exact Or.inr (Or.inr (by rw [h2, List.append_assoc]; rfl))
  · next hs =>
    have h2 := attemptGates_evs_T hT h
    exact ⟨fun ht => absurd ht hs, fun _ => h2⟩

theorem attemptStatic_evs_F {env : Env} {cfg : Config} {ctx : TaskContext} {step : PlanStep}
    {head : List GitCommit} {muPre : Nat} {repo1 : Repo} {muCand : Option Nat}
    {evs : List TnrEv} {r' : Repo} {a : AttemptRes} {evs' : List TnrEv} {lgs : List String}
    (hT : cfg.gates.targetedTests = false)
    (h : attemptStatic env cfg ctx step head muPre repo1 muCand evs = .ok (r', a, evs', lgs)) :
    evs' = evs ++ [TnrEv.staticRun false] ∨
    evs' = evs ++ [TnrEv.staticRun true, TnrEv.muRevertLate] ∨
    evs' = evs ++ [TnrEv.staticRun true, TnrEv.commitDone] ∨
    evs' = evs ++ [TnrEv.muRevertLate] ∨ evs' = evs ++ [TnrEv.commitDone] := by
  rw [attemptStatic] at h
  split at h
  · split at h
    · split at h
      · simp only [Except.ok.injEq, Prod.mk.injEq] at h
        exact Or.inl h.2.2.1.symm
      · have h2 := attemptGates_evs_F hT h
        rcases h2 with h2 | h2
        · exact Or.inr (Or.inl (by rw [h2, List.append_assoc]; rfl))
        · exact Or.inr (Or.inr (Or.inl (by rw [h2, List.append_assoc]; rfl)))
  · have h2 := attemptGates_evs_F hT h
    rcases h2 with h2 | h2
    · exact Or.inr (Or.inr (Or.inr (Or.inl h2)))
    · exact Or.inr (Or.inr (Or.inr (Or.inr h2)))

/-- Claim C5 (amended): within one attempt of `txn_patch`, when targeted
tests are enabled the candidate µ is never measured and no µ rollback event
occurs, and (with the static gate also enabled) the static gate runs before
the targeted gate, the commit following last; when targeted tests are
disabled, every static-gate run is strictly preceded by the apply and by the
candidate µ measurement of lines 82–88 — the µ-non-worsening check happens
before the static gate, not after it. -/
theorem claim_C5_gate_order (env : Env) (cfg : Config) (ctx : TaskContext) (step : PlanStep)
    (head : List GitCommit) (muPre : Nat) (repo : Repo) (p : DiffProposal)
    (r' : Repo) (a : AttemptRes) (evs : List TnrEv) (lgs : List String)
    (h : attemptOne env cfg ctx step head muPre repo p = .ok (r', a, evs, lgs)) :
    (cfg.gates.targetedTests = true →
      (∀ v, TnrEv.measureMuCand v ∉ evs) ∧ TnrEv.muRevertEarly ∉ evs ∧
      TnrEv.muRevertLate ∉ evs ∧
      (cfg.gates.static = true → ∀ b, TnrEv.targetedRun b ∈ evs →
        evs = [TnrEv.applyOk, TnrEv.staticRun true, TnrEv.targetedRun b] ∨
        evs = [TnrEv.applyOk, TnrEv.staticRun true, TnrEv.targetedRun b,
          TnrEv.commitDone])) ∧
    (cfg.gates.targetedTests = false →
      ∀ b, TnrEv.staticRun b ∈ evs →
        ∃ v rest,
          evs = TnrEv.applyOk :: TnrEv.measureMuCand v :: TnrEv.staticRun b :: rest) := by
  rw [attemptOne] at h
  split at h
  · simp only [Except.ok.injEq, Prod.mk.injEq] at h
    obtain ⟨-, -, hev, -⟩ := h
    subst hev
    refine ⟨fun _ => ⟨fun v => by simp, by simp, by simp, fun _ b hb => by simp at hb⟩,
      fun _ b hb => by simp at hb⟩
  · split at h
    · simp at h
    · simp only [Except.ok.injEq, Prod.mk.injEq] at h
      obtain ⟨-, -, hev, -⟩ := h
      subst hev
      refine ⟨fun _ => ⟨fun v => by simp, by simp, by simp, fun _ b hb => by simp at hb⟩,
        fun _ b hb => by simp at hb⟩
    · next t happly =>
      dsimp only [] at h
      split at h
      · next hTn =>
        have hT : cfg.gates.targetedTests = false := by
          cases hx : cfg.gates.targetedTests
          · rfl
          · exact absurd hx hTn
        split at h
        · simp only [Except.ok.injEq, Prod.mk.injEq] at h
          obtain ⟨-, -, hev, -⟩ := h
          subst hev
          refine ⟨fun ht => absurd (hT.symm.trans ht) (by decide), fun _ b hb => ?_⟩
          simp at hb
        · have h2 := attemptStatic_evs_F hT h
          refine ⟨fun ht => absurd (hT.symm.trans ht) (by decide), fun _ b hb => ?_⟩
          rcases h2 with h2 | h2 | h2 | h2 | h2 <;> rw [h2] at hb ⊢
          · simp at hb
            subst hb
            exact ⟨_, [], rfl⟩
          · simp at hb
            subst hb
            exact ⟨_, [TnrEv.muRevertLate], rfl⟩
          · simp at hb
            subst hb
            exact ⟨_, [TnrEv.commitDone], rfl⟩
          · simp at hb
          · simp at hb
      · next hTn2 =>
        have hT : cfg.gates.targetedTests = true := not_not.mp hTn2
        have h2 := attemptStatic_evs_T hT h
        refine ⟨fun _ => ?_, fun hf => absurd (hf.symm.trans hT) (by decide)⟩
        cases hs : cfg.gates.static
        · rcases h2.2 hs with h3 | h3 <;> rw [h3]
          · exact ⟨fun v => by simp, by simp, by simp,
              fun hst => absurd hst (by decide)⟩
          · exact ⟨fun v => by simp, by simp, by simp,
              fun hst => absurd hst (by decide)⟩
        · rcases h2.1 hs with h3 | h3 | h3 <;> rw [h3]
          · refine ⟨fun v => by simp, by simp, by simp, fun _ b hb => ?_⟩
            simp at hb
          · refine ⟨fun v => by simp, by simp, by simp, fun _ b hb => ?_⟩
            simp at hb
            subst hb
            exact Or.inl rfl
          · refine ⟨fun v => by simp, by simp, by simp, fun _ b hb => ?_⟩
            simp at hb
            subst hb
            exact Or.inr rfl

theorem claim_C5_gate_order_witness :
    TnrEv.muRevertLate ∉
      [TnrEv.applyOk, TnrEv.staticRun true, TnrEv.targetedRun true, TnrEv.commitDone] :=
  ((claim_C5_gate_order envA cfgD ctxA stepA repoClean.commits 0 repoClean pOK
      ⟨⟨commitMsg stepA, [("m", "b\n")]⟩ :: repoClean.commits, [("m", "b\n")]⟩
      (AttemptRes.committed 0)
      [TnrEv.applyOk, TnrEv.staticRun true, TnrEv.targetedRun true, TnrEv.commitDone]
      [] rfl).1 rfl).2.2.1

theorem claim_C5_counterexample :
    txnPatch env5 cfg5 ctxA stepA [pOK] repoClean =
      .ok (revertTo repoClean.commits,
        ⟨false, none, 0, 0, ["mu worsened from 0 to 5; rolling back."]⟩,
        [TnrEv.measureMuPre 0, TnrEv.applyOk, TnrEv.measureMuCand 5,
          TnrEv.muRevertEarly, TnrEv.finalRevert]) ∧
    cfg5.gates.static = true ∧
    TnrEv.staticRun true ∉ [TnrEv.measureMuPre 0, TnrEv.applyOk, TnrEv.measureMuCand 5,
      TnrEv.muRevertEarly, TnrEv.finalRevert] ∧
    TnrEv.staticRun false ∉ [TnrEv.measureMuPre 0, TnrEv.applyOk, TnrEv.measureMuCand 5,
      TnrEv.muRevertEarly, TnrEv.finalRevert] :=
  ⟨rfl, rfl, by simp, by simp⟩

/-! ## Claim C9: diff normalization -/

theorem getLast?_cons_ne {α : Type} {x : α} {rest : List α} (h : rest ≠ []) :
    (x :: rest).getLast? = rest.getLast? := by
  cases rest with
  | nil => exact absurd rfl h
  | cons a t => rfl

theorem getLast?_append_right (l1 : List Char) (a : Char) (l2 : List Char) :
    (l1 ++ a :: l2).getLast? = (a :: l2).getLast? := by
  induction l1 with
  | nil => rfl
  | cons x xs ih =>
    rw [List.cons_append, getLast?_cons_ne (by simp), ih]

theorem mem_of_getLast? {l : List Char} {a : Char} (h : l.getLast? = some a) : a ∈ l := by
  induction l with
  | nil => cases h
  | cons x t ih =>
    cases t with
    | nil =>
      cases h
      exact List.mem_cons_self x []
    | cons y t' =>
      exact List.mem_cons_of_mem x (ih h)

theorem wordsC_no_ws (cs : List Char) :
    ∀ w ∈ wordsC cs, ∀ c ∈ w, pyIsWs c = false := by
  induction cs with
  | nil => intro w hw; simp [wordsC] at hw
  | cons c rest ih =>
    intro w hw
    by_cases h : pyIsWs c
    · simp only [wordsC] at hw
      rw [if_pos h] at hw
      exact ih w hw
    · simp only [wordsC] at hw
      rw [if_neg h] at hw
      cases hrec : wordsC rest with
      | nil =>
        rw [hrec] at hw
        simp at hw
        subst hw
        intro d hd
        simp at hd
        subst hd
        simpa using h
      | cons hh tt =>
        rw [hrec] at hw
        cases rest with
        | nil => simp [wordsC] at hrec
        | cons r rest2 =>
          dsimp only at hw
          by_cases hr : pyIsWs r
          · rw [if_pos hr] at hw
            simp only [List.mem_cons] at hw
            rcases hw with rfl | hw
            · intro d hd
              simp at hd
              subst hd
              simpa using h
            · exact ih w (by rw [hrec]; exact List.mem_cons.mpr hw)
          · rw [if_neg hr] at hw
            simp only [List.mem_cons] at hw
            rcases hw with rfl | hw
            · intro d hd
              simp only [List.mem_cons] at hd
              rcases hd with rfl | hd
              · simpa using h
              · exact ih hh (by rw [hrec]; exact List.mem_cons_self hh tt) d hd
            · exact ih w (by rw [hrec]; exact List.mem_cons_of_mem hh hw)

theorem getD_mem_or_default (l : List (List Char)) (i : Nat) :
    l.getD i [] ∈ l ∨ l.getD i [] = [] := by
  induction l generalizing i with
  | nil => right; simp [List.getD]
  | cons a t ih =>
    cases i with
    | zero => left; simp [List.getD]
    | succ n =>
      rcases ih n with h | h
      · left
        simp only [List.getD] at h ⊢
        exact List.mem_cons_of_mem a h
      · right
        simpa [List.getD] using h

theorem getD_words_no_nl (h : List Char) (n : Nat) : '\n' ∉ (wordsC h).getD n [] := by
  rcases getD_mem_or_default (wordsC h) n with hm | hm
  · intro hc
    have := wordsC_no_ws h _ hm '\n' hc
    simp [pyIsWs] at this
  · rw [hm]
    simp

theorem getD_eq_of_getElem? {l : List (List Char)} {n : Nat} {a : List Char}
    (h : l[n]? = some a) : l.getD n [] = a := by
  induction l generalizing n with
  | nil => simp at h
  | cons x t ih =>
    cases n with
    | zero =>
      simp only [List.getElem?_cons_zero, Option.some.injEq] at h
      simp [List.getD, h]
    | succ m =>
      simp only [List.getElem?_cons_succ] at h
      simpa [List.getD] using ih h

theorem mkMinusLine_eq {h aPath : List Char} (hg : (wordsC h)[2]? = some aPath) :
    mkMinusLine h = "--- ".data ++ aPath := by
  rw [mkMinusLine, getD_eq_of_getElem? hg]

theorem mkPlusLine_eq {h bPath : List Char} (hg : (wordsC h)[3]? = some bPath) :
    mkPlusLine h = "+++ ".data ++ bPath := by
  rw [mkPlusLine, getD_eq_of_getElem? hg]

theorem mkMinusLine_no_nl (h : List Char) : '\n' ∉ mkMinusLine h := by
  rw [mkMinusLine]
  intro hc
  rcases List.mem_append.mp hc with hc | hc
  · simp at hc
  · exact getD_words_no_nl h 2 hc

theorem mkPlusLine_no_nl (h : List Char) : '\n' ∉ mkPlusLine h := by
  rw [mkPlusLine]
  intro hc
  rcases List.mem_append.mp hc with hc | hc
  · simp at hc
  · exact getD_words_no_nl h 3 hc

theorem mkMinusLine_not_header (h : List Char) : isGitHeaderC (mkMinusLine h) = false := rfl

theorem mkPlusLine_not_header (h : List Char) : isGitHeaderC (mkPlusLine h) = false := rfl

theorem mkMinusLine_pre (h : List Char) : listPre "--- ".data (mkMinusLine h) = true :=
  listPre_append _ _

theorem mkPlusLine_pre (h : List Char) : listPre "+++ ".data (mkPlusLine h) = true :=
  listPre_append _ _

theorem mkPlusLine_ne_nil (h : List Char) : mkPlusLine h ≠ [] := by
  rw [mkPlusLine]
  intro hx
  rcases List.append_eq_nil.mp hx with ⟨h1, -⟩
  simp at h1

theorem bool_not_eq_true {b : Bool} (h : ¬ b = true) : b = false := by
  cases b
  · rfl
  · exact absurd rfl h

theorem normalizeLinesC_total :
    ∀ ls, linesWF ls = true → ∃ out, normalizeLinesC ls = some out ∧ NormRel ls out := by
  intro ls
  induction ls using normalizeLinesC.induct with
  | case1 => exact fun _ => ⟨[], by simp [normalizeLinesC], NormRel.nil⟩
  | case2 h hg parts aPath bPath hb ha r1 h1 r2 rest2 h2 ih =>
    intro hwf
    have ha2 : (wordsC h)[2]? = some aPath := by rw [← List.get?_eq_getElem?]; exact ha
    have hb2 : (wordsC h)[3]? = some bPath := by rw [← List.get?_eq_getElem?]; exact hb
    simp only [linesWF, List.all_cons, Bool.and_eq_true] at hwf
    obtain ⟨o, ho, hrel⟩ := ih hwf.2.2.2
    exact ⟨h :: r1 :: r2 :: o, by simp [normalizeLinesC, hg, ha2, hb2, h1, h2, ho],
      NormRel.both hg h1 h2 hrel⟩
  | case3 h hg parts aPath bPath hb ha r1 h1 r2 rest2 h2 ih =>
    intro hwf
    have ha2 : (wordsC h)[2]? = some aPath := by rw [← List.get?_eq_getElem?]; exact ha
    have hb2 : (wordsC h)[3]? = some bPath := by rw [← List.get?_eq_getElem?]; exact hb
    simp only [linesWF, List.all_cons, Bool.and_eq_true] at hwf
    obtain ⟨o, ho, hrel⟩ := ih (by simp [linesWF, List.all_cons, hwf.2.2.1, hwf.2.2.2])
    refine ⟨h :: r1 :: mkPlusLine h :: o, ?_, ?_⟩
    · simp [normalizeLinesC, hg, ha2, hb2, h1, h2, ho, mkPlusLine_eq hb2]
    · exact NormRel.keepMinusInsPlus hg h1
        (fun r hr => by cases hr; exact bool_not_eq_true h2) hrel
  | case4 h hg parts aPath bPath hb ha r1 h1 =>
    intro hwf
    have ha2 : (wordsC h)[2]? = some aPath := by rw [← List.get?_eq_getElem?]; exact ha
    have hb2 : (wordsC h)[3]? = some bPath := by rw [← List.get?_eq_getElem?]; exact hb
    refine ⟨[h, r1, mkPlusLine h], ?_, ?_⟩
    · simp [normalizeLinesC, hg, ha2, hb2, h1, mkPlusLine_eq hb2]
    · exact NormRel.keepMinusInsPlus hg h1 (fun r hr => by cases hr) NormRel.nil
  | case5 h hg parts aPath bPath hb ha r2 rest2 h1 h2 ih =>
    intro hwf
    have ha2 : (wordsC h)[2]? = some aPath := by rw [← List.get?_eq_getElem?]; exact ha
    have hb2 : (wordsC h)[3]? = some bPath := by rw [← List.get?_eq_getElem?]; exact hb
    simp only [linesWF, List.all_cons, Bool.and_eq_true] at hwf
    obtain ⟨o, ho, hrel⟩ := ih hwf.2.2
    refine ⟨h :: mkMinusLine h :: r2 :: o, ?_, ?_⟩
    · simp [normalizeLinesC, hg, ha2, hb2, h1, h2, ho, mkMinusLine_eq ha2]
    · exact NormRel.insMinusKeepPlus hg (bool_not_eq_true h1) h2 hrel
  | case6 h hg parts aPath bPath hb ha r2 rest2 h1 h2 ih =>
    intro hwf
    have ha2 : (wordsC h)[2]? = some aPath := by rw [← List.get?_eq_getElem?]; exact ha
    have hb2 : (wordsC h)[3]? = some bPath := by rw [← List.get?_eq_getElem?]; exact hb
    simp only [linesWF, List.all_cons, Bool.and_eq_true] at hwf
    obtain ⟨o, ho, hrel⟩ := ih (by simp [linesWF, List.all_cons, hwf.2.1, hwf.2.2])
    refine ⟨h :: mkMinusLine h :: mkPlusLine h :: o, ?_, ?_⟩
    · simp [normalizeLinesC, hg, ha2, hb2, h1, h2, ho, mkMinusLine_eq ha2, mkPlusLine_eq hb2]
    · exact NormRel.insBoth hg
        (fun r hr => by cases hr; exact ⟨bool_not_eq_true h1, bool_not_eq_true h2⟩) hrel
  | case7 h hg parts aPath bPath hb ha =>
    intro hwf
    have ha2 : (wordsC h)[2]? = some aPath := by rw [← List.get?_eq_getElem?]; exact ha
    have hb2 : (wordsC h)[3]? = some bPath := by rw [← List.get?_eq_getElem?]; exact hb
    refine ⟨[h, mkMinusLine h, mkPlusLine h], ?_, ?_⟩
    · simp [normalizeLinesC, hg, ha2, hb2, mkMinusLine_eq ha2, mkPlusLine_eq hb2]
    · exact NormRel.insBoth hg (fun r hr => by cases hr) NormRel.nil
  | case8 h t hg parts hfalse =>
    intro hwf
    exfalso
    simp only [linesWF, List.all_cons, Bool.and_eq_true] at hwf
    have hp := hwf.1
    rw [hg] at hp
    simp at hp
    have h2 : ∃ a, (wordsC h)[2]? = some a := by
      cases hx : (wordsC h)[2]? with
      | none => rw [List.getElem?_eq_none_iff] at hx; omega
      | some a => exact ⟨a, rfl⟩
    have h3 : ∃ b, (wordsC h)[3]? = some b := by
      cases hx : (wordsC h)[3]? with
      | none => rw [List.getElem?_eq_none_iff] at hx; omega
      | some b => exact ⟨b, rfl⟩
    obtain ⟨a, hxa⟩ := h2
    obtain ⟨b, hxb⟩ := h3
    exact hfalse a b (by rw [List.get?_eq_getElem?]; exact hxa)
      (by rw [List.get?_eq_getElem?]; exact hxb)
  | case9 h t hh ih =>
    intro hwf
    simp only [linesWF, List.all_cons, Bool.and_eq_true] at hwf
    obtain ⟨o, ho, hrel⟩ := ih hwf.2
    exact ⟨h :: o, by simp [normalizeLinesC, hh, ho], NormRel.keep (bool_not_eq_true hh) hrel⟩

theorem NormRel_nil_left {out : List (List Char)} (h : NormRel [] out) : out = [] := by
  cases h
  rfl

theorem NormRel_ne_nil {ls out : List (List Char)} (h : NormRel ls out) (hne : ls ≠ []) :
    out ≠ [] := by
  cases h with
  | nil => exact absurd rfl hne
  | keep _ _ => simp
  | both _ _ _ _ => simp
  | keepMinusInsPlus _ _ _ _ => simp
  | insMinusKeepPlus _ _ _ _ => simp
  | insBoth _ _ _ => simp

theorem NormRel_noNl {ls out : List (List Char)} (h : NormRel ls out) :
    (∀ l ∈ ls, '\n' ∉ l) → ∀ l ∈ out, '\n' ∉ l := by
  induction h with
  | nil => exact fun h => h
  | keep hh _ ih =>
    intro hin
    simp only [List.forall_mem_cons] at hin ⊢
    exact ⟨hin.1, ih hin.2⟩
  | both hg h1 h2 _ ih =>
    intro hin
    simp only [List.forall_mem_cons] at hin ⊢
    exact ⟨hin.1, hin.2.1, hin.2.2.1, ih hin.2.2.2⟩
  | keepMinusInsPlus hg h1 _ _ ih =>
    intro hin
    simp only [List.forall_mem_cons] at hin ⊢
    exact ⟨hin.1, hin.2.1, mkPlusLine_no_nl _, ih hin.2.2⟩
  | insMinusKeepPlus hg h1 h2 _ ih =>
    intro hin
    simp only [List.forall_mem_cons] at hin ⊢
    exact ⟨hin.1, mkMinusLine_no_nl _, hin.2.1, ih hin.2.2⟩
  | insBoth hg _ _ ih =>
    intro hin
    simp only [List.forall_mem_cons] at hin ⊢
    exact ⟨hin.1, mkMinusLine_no_nl _, mkPlusLine_no_nl _, ih hin.2⟩

theorem NormRel_WF {ls out : List (List Char)} (h : NormRel ls out) :
    linesWF ls = true → linesWF out = true := by
  induction h with
  | nil => exact fun h => h
  | keep hh _ ih =>
    intro hin
    simp only [linesWF, List.all_cons, Bool.and_eq_true] at hin ⊢
    exact ⟨hin.1, ih hin.2⟩
  | both hg h1 h2 _ ih =>
    intro hin
    simp only [linesWF, List.all_cons, Bool.and_eq_true] at hin ⊢
    exact ⟨hin.1, hin.2.1, hin.2.2.1, ih hin.2.2.2⟩
  | keepMinusInsPlus hg h1 _ _ ih =>
    intro hin
    simp only [linesWF, List.all_cons, Bool.and_eq_true] at hin ⊢
    exact ⟨hin.1, hin.2.1, by simp [mkPlusLine_not_header], ih hin.2.2⟩
  | insMinusKeepPlus hg h1 h2 _ ih =>
    intro hin
    simp only [linesWF, List.all_cons, Bool.and_eq_true] at hin ⊢
    exact ⟨hin.1, by simp [mkMinusLine_not_header], hin.2.1, ih hin.2.2⟩
  | insBoth hg _ _ ih =>
    intro hin
    simp only [linesWF, List.all_cons, Bool.and_eq_true] at hin ⊢
    exact ⟨hin.1, by simp [mkMinusLine_not_header], by simp [mkPlusLine_not_header], ih hin.2⟩

theorem NormRel_last {ls out : List (List Char)} (h : NormRel ls out) :
    ls.getLast? ≠ some [] → out.getLast? ≠ some [] := by
  induction h with
  | nil => exact id
  | @keep l ls out hh hrel ih =>
    intro hl
    by_cases hnil : ls = []
    · subst hnil
      rw [NormRel_nil_left hrel]
      exact hl
    · have hout : out ≠ [] := NormRel_ne_nil hrel hnil
      rw [getLast?_cons_ne hnil] at hl
      rw [getLast?_cons_ne hout]
      exact ih hl
  | @both h r1 r2 ls out hg h1 h2 hrel ih =>
    intro hl
    by_cases hnil : ls = []
    · subst hnil
      rw [NormRel_nil_left hrel]
      exact hl
    · have hout : out ≠ [] := NormRel_ne_nil hrel hnil
      rw [List.getLast?_cons_cons, List.getLast?_cons_cons, getLast?_cons_ne hnil] at hl
      rw [List.getLast?_cons_cons, List.getLast?_cons_cons, getLast?_cons_ne hout]
      exact ih hl
  | @keepMinusInsPlus h r1 ls out hg h1 hnone hrel ih =>
    intro hl
    by_cases hnil : ls = []
    · subst hnil
      rw [NormRel_nil_left hrel]
      intro hx
      rw [List.getLast?_cons_cons, List.getLast?_cons_cons] at hx
      exact mkPlusLine_ne_nil h (Option.some.inj hx)
    · have hout : out ≠ [] := NormRel_ne_nil hrel hnil
      rw [List.getLast?_cons_cons, getLast?_cons_ne hnil] at hl
      rw [List.getLast?_cons_cons, List.getLast?_cons_cons, getLast?_cons_ne hout]
      exact ih hl
  | @insMinusKeepPlus h r2 ls out hg h1 h2 hrel ih =>
    intro hl
    by_cases hnil : ls = []
    · subst hnil
      rw [NormRel_nil_left hrel]
      rw [List.getLast?_cons_cons] at hl
      rw [List.getLast?_cons_cons, List.getLast?_cons_cons]
      exact hl
    · have hout : out ≠ [] := NormRel_ne_nil hrel hnil
      rw [List.getLast?_cons_cons, getLast?_cons_ne hnil] at hl
      rw [List.getLast?_cons_cons, List.getLast?_cons_cons, getLast?_cons_ne hout]
      exact ih hl
  | @insBoth h ls out hg hcond hrel ih =>
    intro hl
    by_cases hnil : ls = []
    · subst hnil
      rw [NormRel_nil_left hrel]
      intro hx
      rw [List.getLast?_cons_cons, List.getLast?_cons_cons] at hx
      exact mkPlusLine_ne_nil h (Option.some.inj hx)
    · have hout : out ≠ [] := NormRel_ne_nil hrel hnil
      rw [getLast?_cons_ne hnil] at hl
      rw [List.getLast?_cons_cons, List.getLast?_cons_cons, getLast?_cons_ne hout]
      exact ih hl

theorem NormRel_normalized {ls out : List (List Char)} (h : NormRel ls out) :
    normalizedLines out = true := by
  induction h with
  | nil => rw [normalizedLines.eq_def]
  | keep hh _ ih =>
    rw [normalizedLines.eq_def]
    simp [hh, ih]
  | both hg h1 h2 _ ih =>
    rw [normalizedLines.eq_def]
    simp [hg, h1, h2, ih]
  | @keepMinusInsPlus h r1 ls2 out2 hg h1 hno hrel ih =>
    rw [normalizedLines.eq_def]
    simp [hg, h1, ih]
    exact mkPlusLine_pre h
  | @insMinusKeepPlus h r2 ls2 out2 hg h1 h2 hrel ih =>
    rw [normalizedLines.eq_def]
    simp [hg, h2, ih]
    exact mkMinusLine_pre h
  | @insBoth h ls2 out2 hg hno hrel ih =>
    rw [normalizedLines.eq_def]
    simp [hg, ih]
    exact ⟨mkMinusLine_pre h, mkPlusLine_pre h⟩

theorem normalizeLinesC_fixed :
    ∀ ls, linesWF ls = true → normalizedLines ls = true → normalizeLinesC ls = some ls := by
  intro ls
  induction ls using normalizeLinesC.induct with
  | case1 => intro _ _; simp [normalizeLinesC]
  | case2 h hg parts aPath bPath hb ha r1 h1 r2 rest2 h2 ih =>
    intro hwf hnorm
    have ha2 : (wordsC h)[2]? = some aPath := by rw [← List.get?_eq_getElem?]; exact ha
    have hb2 : (wordsC h)[3]? = some bPath := by rw [← List.get?_eq_getElem?]; exact hb
    simp only [linesWF, List.all_cons, Bool.and_eq_true] at hwf
    rw [normalizedLines.eq_def] at hnorm
    simp only [hg, if_true, h1, h2, Bool.true_and, Bool.and_eq_true] at hnorm
    have := ih hwf.2.2.2 (by simpa using hnorm)
    simp [normalizeLinesC, hg, ha2, hb2, h1, h2, this]
  | case3 h hg parts aPath bPath hb ha r1 h1 r2 rest2 h2 ih =>
    intro hwf hnorm
    exfalso
    rw [normalizedLines.eq_def] at hnorm
    simp only [hg, if_true, h1, Bool.true_and, Bool.and_eq_true] at hnorm
    exact h2 hnorm.1
  | case4 h hg parts aPath bPath hb ha r1 h1 =>
    intro hwf hnorm
    exfalso
    rw [normalizedLines.eq_def] at hnorm
    simp [hg] at hnorm
  | case5 h hg parts aPath bPath hb ha r2 rest2 h1 h2 ih =>
    intro hwf hnorm
    exfalso
    rw [normalizedLines.eq_def] at hnorm
    cases rest2 with
    | nil => simp [hg] at hnorm
    | cons x xs =>
      simp only [hg, if_true, Bool.and_eq_true] at hnorm
      exact h1 hnorm.1.1
  | case6 h hg parts aPath bPath hb ha r2 rest2 h1 h2 ih =>
    intro hwf hnorm
    exfalso
    rw [normalizedLines.eq_def] at hnorm
    cases rest2 with
    | nil => simp [hg] at hnorm
    | cons x xs =>
      simp only [hg, if_true, Bool.and_eq_true] at hnorm
      exact h1 hnorm.1.1
  | case7 h hg parts aPath bPath hb ha =>
    intro hwf hnorm
    exfalso
    rw [normalizedLines.eq_def] at hnorm
    simp [hg] at hnorm
  | case8 h t hg parts hfalse =>
    intro hwf hnorm
    exfalso
    simp only [linesWF, List.all_cons, Bool.and_eq_true] at hwf
    have hp := hwf.1
    rw [hg] at hp
    simp at hp
    have h2 : ∃ a, (wordsC h)[2]? = some a := by
      cases hx : (wordsC h)[2]? with
      | none => rw [List.getElem?_eq_none_iff] at hx; omega
      | some a => exact ⟨a, rfl⟩
    have h3 : ∃ b, (wordsC h)[3]? = some b := by
      cases hx : (wordsC h)[3]? with
      | none => rw [List.getElem?_eq_none_iff] at hx; omega
      | some b => exact ⟨b, rfl⟩
    obtain ⟨a, hxa⟩ := h2
    obtain ⟨b, hxb⟩ := h3
    exact hfalse a b (by rw [List.get?_eq_getElem?]; exact hxa)
      (by rw [List.get?_eq_getElem?]; exact hxb)
  | case9 h t hh ih =>
    intro hwf hnorm
    simp only [linesWF, List.all_cons, Bool.and_eq_true] at hwf
    rw [normalizedLines.eq_def] at hnorm
    simp only [bool_not_eq_true hh, if_false, Bool.false_eq_true] at hnorm
    simp [normalizeLinesC, hh, ih hwf.2 hnorm]

theorem splitAtNl_concat_nl (xs : List Char) :
    splitAtNl (xs ++ ['\n']) = splitAtNl xs ++ [[]] := by
  induction xs with
  | nil => rfl
  | cons c rest ih =>
    by_cases h : c = '\n'
    · subst h
      simp [splitAtNl, ih]
    · rw [List.cons_append]
      simp only [splitAtNl, if_neg h, ih]
      cases hx : splitAtNl rest with
      | nil => exact absurd hx (splitAtNl_ne_nil rest)
      | cons a t => simp

theorem splitAtNl_single {l : List Char} (h : '\n' ∉ l) : splitAtNl l = [l] := by
  induction l with
  | nil => rfl
  | cons c rest ih =>
    simp only [List.mem_cons, not_or] at h
    rw [splitAtNl, if_neg (fun hc => h.1 hc.symm), ih h.2]

theorem splitAtNl_append_cons {l : List Char} (h : '\n' ∉ l) (ds : List Char) :
    splitAtNl (l ++ '\n' :: ds) = l :: splitAtNl ds := by
  induction l with
  | nil => simp [splitAtNl]
  | cons c rest ih =>
    simp only [List.mem_cons, not_or] at h
    rw [List.cons_append, splitAtNl, if_neg (fun hc => h.1 hc.symm), ih h.2]

theorem splitAtNl_joinNl {out : List (List Char)} (hne : out ≠ [])
    (hnl : ∀ l ∈ out, '\n' ∉ l) : splitAtNl (joinNl out) = out := by
  induction out with
  | nil => exact absurd rfl hne
  | cons l rest ih =>
    cases rest with
    | nil => exact splitAtNl_single (hnl l (List.mem_cons_self l []))
    | cons m rest2 =>
      rw [show joinNl (l :: m :: rest2) = l ++ '\n' :: joinNl (m :: rest2) from rfl,
        splitAtNl_append_cons (hnl l (List.mem_cons_self l (m :: rest2))),
        ih (by simp) (fun x hx => hnl x (List.mem_cons_of_mem l hx))]

theorem splitChars_joinNl {out : List (List Char)} (hnl : ∀ l ∈ out, '\n' ∉ l)
    (hlast : out.getLast? ≠ some []) : splitChars (joinNl out) = out := by
  by_cases hne : out = []
  · subst hne
    rfl
  · simp only [splitChars]
    rw [splitAtNl_joinNl hne hnl, if_neg hlast]

theorem splitChars_eq_nil {cs : List Char} (h : splitChars cs = []) : cs = [] := by
  simp only [splitChars] at h
  split at h
  · next hlast =>
    cases hch : splitAtNl cs with
    | nil => exact absurd hch (splitAtNl_ne_nil cs)
    | cons a t =>
      cases t with
      | nil =>
        rw [hch] at hlast
        simp only [List.getLast?_singleton, Option.some.injEq] at hlast
        have hj := joinNl_splitAtNl cs
        rw [hch, hlast] at hj
        exact hj.symm
      | cons b t2 =>
        rw [hch] at h
        simp at h
  · next hlast => exact absurd h (splitAtNl_ne_nil cs)

theorem joinNl_not_endsNl {out : List (List Char)} :
    (∀ l ∈ out, '\n' ∉ l) → out.getLast? ≠ some [] → endsNl (joinNl out) = false := by
  induction out with
  | nil => intro _ _; rfl
  | cons l rest ih =>
    intro hnl hlast
    cases rest with
    | nil =>
      have hl : l ≠ [] := fun hx => hlast (by rw [hx]; rfl)
      rw [show joinNl [l] = l from rfl]
      cases hx : l.getLast? with
      | none => simp [endsNl, hx]
      | some c =>
        have hc : c ≠ '\n' := fun hc' =>
          hnl l (List.mem_cons_self l []) (hc' ▸ mem_of_getLast? hx)
        simp [endsNl, hx, hc]
    | cons m rest2 =>
      rw [show joinNl (l :: m :: rest2) = l ++ '\n' :: joinNl (m :: rest2) from rfl]
      have hj : joinNl (m :: rest2) ≠ [] := by
        cases rest2 with
        | nil =>
          have hm : m ≠ [] := fun hx => hlast (by rw [hx]; rfl)
          exact fun hx => hm hx
        | cons k rest3 =>
          rw [show joinNl (m :: k :: rest3) = m ++ '\n' :: joinNl (k :: rest3) from rfl]
          simp
      obtain ⟨y, j2, hj2⟩ := List.exists_cons_of_ne_nil hj
      rw [hj2]
      have h1 : endsNl (l ++ '\n' :: y :: j2) = endsNl (y :: j2) := by
        rw [endsNl, endsNl, getLast?_append_right, List.getLast?_cons_cons]

      rw [h1, ← hj2]
      exact ih (fun x hx => hnl x (List.mem_cons_of_mem l hx))
        (by rw [getLast?_cons_ne (by simp)] at hlast; exact hlast)

theorem endsNl_concat_nl (xs : List Char) : endsNl (xs ++ ['\n']) = true := by
  rw [endsNl, show (['\n'] : List Char) = '\n' :: [] from rfl, getLast?_append_right]
  rfl

theorem splitChars_no_nl (cs : List Char) : ∀ l ∈ splitChars cs, '\n' ∉ l := by
  intro l hl
  simp only [splitChars] at hl
  split at hl
  · exact splitAtNl_no_nl cs l ((List.dropLast_sublist _).subset hl)
  · exact splitAtNl_no_nl cs l hl

/-- Claim C9 (amended): for every diff string whose `diff --git` lines all
carry at least four whitespace-separated fields and whose last line (under
Python `splitlines` on `"\n"`) is non-empty, `_normalize_diff` succeeds and
returns a diff whose line list inserts, immediately after each `diff --git`
header not already followed by them, the `--- {parts[2]}` and
`+++ {parts[3]}` lines, keeps every other line unchanged in order, preserves
the trailing newline, and is a fixed point of `_normalize_diff`.  Without
those hypotheses the function can raise `IndexError` or lose a trailing
blank line, so it is neither total nor idempotent in general. -/
theorem claim_C9_normalize (s : String)
    (hwf : linesWF (splitChars s.data) = true)
    (hlast : (splitChars s.data).getLast? ≠ some []) :
    ∃ t, normalizeDiff s = some t ∧
      NormRel (splitChars s.data) (splitChars t.data) ∧
      endsNl t.data = endsNl s.data ∧
      normalizeDiff t = some t := by
  obtain ⟨out, ho, hrel⟩ := normalizeLinesC_total (splitChars s.data) hwf
  have hnl : ∀ l ∈ out, '\n' ∉ l := NormRel_noNl hrel (splitChars_no_nl s.data)
  have hlast2 : out.getLast? ≠ some [] := NormRel_last hrel hlast
  have hscj : splitChars (joinNl out) = out := splitChars_joinNl hnl hlast2
  have hej : endsNl (joinNl out) = false := joinNl_not_endsNl hnl hlast2
  have hwf2 : linesWF out = true := NormRel_WF hrel hwf
  have hnorm : normalizedLines out = true := NormRel_normalized hrel
  have hfix : normalizeLinesC out = some out := normalizeLinesC_fixed out hwf2 hnorm
  cases hS : endsNl s.data with
  | false =>
    refine ⟨⟨joinNl out⟩, ?_, ?_, ?_, ?_⟩
    · simp [normalizeDiff, normalizeChars, ho, hS, hej]
    · rw [show (⟨joinNl out⟩ : String).data = joinNl out from rfl, hscj]
      exact hrel
    · rw [show (⟨joinNl out⟩ : String).data = joinNl out from rfl, hej]
    · simp [normalizeDiff, normalizeChars,
        show (⟨joinNl out⟩ : String).data = joinNl out from rfl, hscj, hfix, hej]
  | true =>
    have hsne : s.data ≠ [] := by
      intro hx
      rw [hx] at hS
      exact absurd hS (by decide)
    have hlsne : splitChars s.data ≠ [] := fun hx => hsne (splitChars_eq_nil hx)
    have hone : out ≠ [] := NormRel_ne_nil hrel hlsne
    have hsp2 : splitChars (joinNl out ++ ['\n']) = out := by
      simp only [splitChars, splitAtNl_concat_nl]
      rw [splitAtNl_joinNl hone hnl, if_pos (by simp), List.dropLast_concat]
    refine ⟨⟨joinNl out ++ ['\n']⟩, ?_, ?_, ?_, ?_⟩
    · simp [normalizeDiff, normalizeChars, ho, hS, hej]
    · rw [show (⟨joinNl out ++ ['\n']⟩ : String).data = joinNl out ++ ['\n'] from rfl, hsp2]
      exact hrel
    · rw [show (⟨joinNl out ++ ['\n']⟩ : String).data = joinNl out ++ ['\n'] from rfl,
        endsNl_concat_nl]
    · simp [normalizeDiff, normalizeChars,
        show (⟨joinNl out ++ ['\n']⟩ : String).data = joinNl out ++ ['\n'] from rfl,
        hsp2, hfix, endsNl_concat_nl, hej]

theorem claim_C9_normalize_witness :
    ∃ t, normalizeDiff d9 = some t ∧ NormRel (splitChars d9.data) (splitChars t.data) ∧
      endsNl t.data = endsNl d9.data ∧ normalizeDiff t = some t :=
  claim_C9_normalize d9 (by decide) (by decide)

theorem normalizeLinesC_no_header :
    ∀ ls : List (List Char), (∀ l ∈ ls, isGitHeaderC l = false) →
      normalizeLinesC ls = some ls := by
  intro ls
  induction ls with
  | nil => intro _; rw [normalizeLinesC.eq_def]
  | cons l t ih =>
    intro hh
    rw [normalizeLinesC.eq_def]
    simp only [List.forall_mem_cons] at hh
    simp [hh.1, ih hh.2]

theorem claim_C9_counterexample :
    normalizeDiff "a\n\n\n" = some "a\n\n" ∧ normalizeDiff "a\n\n" = some "a\n" ∧
    ("a\n\n" : String) ≠ "a\n\n\n" ∧ normalizeDiff "diff --git\n" = none := by
  refine ⟨?_, ?_, by decide, ?_⟩
  · have h1 : splitChars ("a\n\n\n" : String).data = [['a'], [], []] := by decide
    have h2 := normalizeLinesC_no_header [['a'], [], []] (by decide)
    simp only [normalizeDiff, normalizeChars, h1, h2]
    decide
  · have h1 : splitChars ("a\n\n" : String).data = [['a'], []] := by decide
    have h2 := normalizeLinesC_no_header [['a'], []] (by decide)
    simp only [normalizeDiff, normalizeChars, h1, h2]
    decide
  · have h1 : splitChars ("diff --git\n" : String).data = ["diff --git".data] := by decide
    have h2 : normalizeLinesC ["diff --git".data] = none := by
      rw [normalizeLinesC.eq_def]
      rfl
    simp only [normalizeDiff, normalizeChars, h1, h2]
    rfl
